import Mathlib

/-!
# Formal model of the kwgraph library (`src/graph.h`)

A shallow embedding of the kwgraph graph container and its traversal
engine.  Machine integers are modelled by `Nat`/`Int` (all values that
occur in the claims are far from overflow), C++ `float` quantities of the
random generator are modelled by exact rationals, fallible code paths
(failed `assert`, a function falling off its end without a `return`, a
read of an uninitialized variable, exhausted loop fuel) are modelled with
`Option`.

Node ids are modelled as `Nat`: the source uses `int`, but every id that
ever reaches a container index is non-negative.  The `parent` field keeps
`Int` because the sentinels `ROOT_ID = -1` and `INVALID_ID = -2` are
negative.
-/

namespace KWGraph

/-- `ROOT_ID` sentinel from `graph.h`. -/
def ROOT_ID : Int := -1

/-- `INVALID_ID` sentinel from `graph.h`. -/
def INVALID_ID : Int := -2

/-- `enum GraphCreationFlags` (bit values from `graph.h`). -/
def GraphCreationFlags_Connected : Nat := 1
def GraphCreationFlags_Directed : Nat := 2
def GraphCreationFlags_Sparse : Nat := 4
def GraphCreationFlags_Consistent : Nat := 8
def GraphCreationFlags_AllowCycles : Nat := 16

/-- `enum StorageType` from `graph.h`.  The source declares
`StorageType_AdjacencyList = 1 << 0` and `StorageType_AdjacencyMatrix = 1 << 0`:
both enumerators carry the same bit. -/
def StorageType_None : Nat := 0
def StorageType_AdjacencyList : Nat := 1
def StorageType_AdjacencyMatrix : Nat := 1

/-- `enum DFSOrder`. -/
inductive DFSOrder where
  | PreOrder
  | PostOrder
deriving DecidableEq, Repr

/-- `enum NodeAction`. -/
inductive NodeAction where
  | Continue
  | Abort
  | SkipChildren
deriving DecidableEq, Repr

/-- `struct Node<T>` from `graph.h`.  The layout coordinates `x`,`y`
(floats, never read by storage, generation or traversal) are omitted.
`edges` holds indices into the graph's edge collection. -/
structure GNode (T : Type) where
  edges : List Nat
  weight : T
  parent : Int
  id : Nat
deriving DecidableEq, Repr

/-- `struct Edge<T>` from `graph.h`. -/
structure GEdge (T : Type) where
  source : Nat
  destination : Nat
  weight : T
  directed : Bool
deriving DecidableEq, Repr

/-- `class Graph<T>`: the dense matrix `m_matrix` (row-major, linear),
the node collection `m_nodes`, the edge collection `m_edges` and the
storage-selection bitmask `m_storageType`. -/
structure Graph (T : Type) where
  matrix : List T
  nodes : List (GNode T)
  edges : List (GEdge T)
  storageType : Nat
deriving DecidableEq, Repr

variable {T : Type}

instance [Inhabited T] : Inhabited (GNode T) :=
  ⟨{ edges := [], weight := default, parent := INVALID_ID, id := 0 }⟩

instance [Inhabited T] : Inhabited (GEdge T) :=
  ⟨{ source := 0, destination := 0, weight := default, directed := true }⟩

/-- Replace the element at index `i` (no-op when out of range), used for
the C++ `vector` writes `v[i] = x`. -/
def listUpd (l : List α) (i : Nat) (f : α → α) : List α :=
  match l[i]? with
  | some a => l.set i (f a)
  | none => l

namespace Graph

/-- `Graph::GetNrNodes`. -/
def nrNodes (g : Graph T) : Nat := g.nodes.length

/-- `Graph::GetMatrixIndex`: `row * nrNodes + col`. -/
def getMatrixIndex (g : Graph T) (row col : Nat) : Nat :=
  row * g.nodes.length + col

/-- The node stored at position `i` of `m_nodes`. -/
def nodeRec [Inhabited T] (g : Graph T) (i : Nat) : GNode T :=
  g.nodes.getD i default

/-- The `id` field of the node stored at position `i` (the source reads
`crNode->id`; the generator assigns `id == position`). -/
def nodeIdAt [Inhabited T] (g : Graph T) (i : Nat) : Nat :=
  (g.nodeRec i).id

/-- `Graph::AddListEdge(int, int, T, bool)` from `graph.h` lines 243-262.
The forward record is always appended and referenced from
`m_nodes[sourceId].edges`; the test guarding the reciprocal record is
`if(directed)` in the source, so the reciprocal `destId -> sourceId`
record is created exactly when `directed` is `true`. -/
def addListEdge (g : Graph T) (sourceId destId : Nat) (weight : T) (directed : Bool) :
    Graph T :=
  let newEdge : GEdge T :=
    { source := sourceId, destination := destId, weight := weight, directed := directed }
  let edgeId := g.edges.length
  let g : Graph T :=
    { g with
      edges := g.edges ++ [newEdge]
      nodes := listUpd g.nodes sourceId (fun nd => { nd with edges := nd.edges ++ [edgeId] }) }
  if directed then
    let edgeId2 := g.edges.length
    let revEdge : GEdge T := { newEdge with source := destId, destination := sourceId }
    { g with
      edges := g.edges ++ [revEdge]
      nodes := listUpd g.nodes destId (fun nd => { nd with edges := nd.edges ++ [edgeId2] }) }
  else
    g

/-- `Graph::AllocAdjacencyMatrix`: resize to `nodeCount²`; `resize`
value-initializes the new cells to `T()` (zero). -/
def allocAdjacencyMatrix [Zero T] (g : Graph T) : Graph T :=
  { g with matrix := List.replicate (g.nodes.length * g.nodes.length) (0 : T) }

/-- `Graph::AddMatrixEdge(int, int, T, bool)` from `graph.h` lines 274-298.
`srcRow` is `static_cast<int>(sourceId / (float)nrNodes)`; exact integer
division agrees with the float computation for all in-range ids.  The
mirror cell is written under `if(directed)` in the source. -/
def addMatrixEdge [Zero T] (g : Graph T) (sourceId destId : Nat) (weight : T)
    (directed : Bool) : Graph T :=
  let expectedSize := g.nodes.length * g.nodes.length
  let g := if g.matrix.length ≠ expectedSize then g.allocAdjacencyMatrix else g
  let nrNodes := g.nodes.length
  let srcRow := sourceId / nrNodes
  let dstRow := destId / nrNodes
  let srcCol := sourceId % nrNodes
  let dstCol := destId % nrNodes
  let srcToDstIndex := g.getMatrixIndex srcRow dstCol
  let g := { g with matrix := g.matrix.set srcToDstIndex weight }
  if directed then
    let dstToSrcIndex := g.getMatrixIndex dstRow srcCol
    { g with matrix := g.matrix.set dstToSrcIndex weight }
  else
    g

/-- `Graph::AddEdge(int, int, T, bool)` from `graph.h` lines 338-346.
`assert(m_storageType != StorageType_None)` is modelled by returning
`none` (the assertion fires). -/
def addEdge [Zero T] (g : Graph T) (sourceId destId : Nat) (weight : T)
    (directed : Bool) : Option (Graph T) :=
  if g.storageType = StorageType_None then
    none
  else
    let g :=
      if g.storageType &&& StorageType_AdjacencyList ≠ 0 then
        g.addListEdge sourceId destId weight directed
      else g
    let g :=
      if g.storageType &&& StorageType_AdjacencyMatrix ≠ 0 then
        g.addMatrixEdge sourceId destId weight directed
      else g
    some g

end Graph

/-! ## Random engine and the randomized generator

`rand`/`srand` are the process-wide C generator.  Its algorithm is
implementation defined, so it is modelled by an abstract family
`randFn : Option Int → Nat → Nat` giving the value of the `pos`-th
`rand()` call after the last `srand` (seed `none` = `srand` never called,
i.e. the libc default state).  The file-scope globals `commonSeed` and
`isRandomEngineOn` from the anonymous namespace of `graph.h` are part of
`EngineState`. -/

/-- Value of `RAND_MAX` (the common 31-bit value). -/
def RAND_MAX : Nat := 2147483647

/-- State of the C `rand` stream. -/
structure RandState where
  seedSet : Option Int
  pos : Nat
deriving DecidableEq, Repr

/-- `m_maxSparseConnections = 10` and `m_denseEdgeChance = 0.8f`,
the latter modelled by the exact rational `4/5` (the float rounding of
`0.8f` cannot change any comparison made in the claims' evaluations,
whose drawn chances are exactly `0` and `1`).  Rational arithmetic uses
the core `Rat` operations (`mkRat`, `Rat.blt`) and `ratMul` below, which
compute by kernel reduction. -/
def maxSparseConnections : Nat := 10
def denseEdgeChance : ℚ := mkRat 4 5

/-- Exact rational multiplication, expressed through `mkRat` so that it
evaluates by kernel reduction (`Rat.mul` itself is `@[irreducible]`);
`mkRat` normalizes, so this equals ordinary multiplication. -/
def ratMul (a b : ℚ) : ℚ := mkRat (a.num * b.num) (a.den * b.den)

/-- The file-scope globals of `graph.h` (`commonSeed`, `isRandomEngineOn`)
together with the C library's generator state. -/
structure EngineState where
  commonSeed : Int
  isRandomEngineOn : Bool
  rand : RandState
deriving DecidableEq, Repr

/-- A model of the C library generator: `randFn seed pos` is the value of
the `pos`-th `rand()` call in the stream selected by `seed`.  Values are
in `[0, RAND_MAX]`. -/
structure REnv where
  randFn : Option Int → Nat → Nat

/-- One `rand()` call. -/
def randNext (env : REnv) (s : RandState) : Nat × RandState :=
  (env.randFn s.seedSet s.pos, { s with pos := s.pos + 1 })

/-- `srand(seed)`. -/
def srandC (seed : Int) : RandState :=
  { seedSet := some seed, pos := 0 }

/-- `StartRandomEngine(bool)` from `graph.h` lines 110-120, verbatim: the
guard is `if(!isRandomEngineOn) return;`, and only past that guard is the
seed chosen and `srand` called.  `timeSeed` stands for the external
`time(NULL)` input. -/
def startRandomEngine (isConsistent : Bool) (timeSeed : Int) (es : EngineState) :
    EngineState :=
  if !es.isRandomEngineOn then
    es
  else
    let seed := if isConsistent then es.commonSeed else timeSeed
    { es with isRandomEngineOn := true, rand := srandC seed }

/-- The process-start value of the globals: `commonSeed = 1234`,
`isRandomEngineOn = false`, `rand` in its libc default state. -/
def initialEngineState : EngineState :=
  { commonSeed := 1234, isRandomEngineOn := false, rand := { seedSet := none, pos := 0 } }

namespace Graph

/-- `Graph::InitGraphStorage`: `m_nodes.resize(size)` (value-initialized
nodes: `Node()` sets `parent = INVALID_ID`, `T weight` zero-initialized,
`id` assigned by the loop), the `reserve` calls have no observable
effect. -/
def initGraphStorage (g : Graph ℚ) (size : Nat) : Graph ℚ :=
  { g with
    nodes := (List.range size).map fun i =>
      { edges := [], weight := mkRat 0 1, parent := INVALID_ID, id := i } }

/-- The body of the `isConnected` fix-up of `Graph::InitializeGraph`
(lines 398-407): draw `connectionIndex = rand() % size`, draw the edge
weight, then redraw `connectionIndex` while `!isCyclic &&
connectionIndex == nodeIt`; the redraw loop gets `fuel` retries and
returns `none` when exhausted (the source can loop forever there). -/
def redrawConnection (env : REnv) (size nodeIt : Nat) (isCyclic : Bool) :
    Nat → Nat → RandState → Option (Nat × RandState)
  | 0, connectionIndex, rs =>
    if !isCyclic && connectionIndex == nodeIt then none else some (connectionIndex, rs)
  | fuel + 1, connectionIndex, rs =>
    if !isCyclic && connectionIndex == nodeIt then
      let (r, rs) := randNext env rs
      redrawConnection env size nodeIt isCyclic fuel (r % size) rs
    else
      some (connectionIndex, rs)

/-- The inner `edgeIt` loop of `Graph::InitializeGraph` for one `nodeIt`:
for every `edgeIt < size` draw `randomChance = rand()/(float)RAND_MAX`;
if below `edgeChance`, skip self-loops unless cyclic, otherwise draw a
weight and `AddEdge(nodeIt, edgeIt, w, isDirected)`. -/
def initEdgesFor (env : REnv) (size nodeIt : Nat) (edgeChance weightScale : ℚ)
    (isCyclic isDirected : Bool) :
    List Nat → Graph ℚ → RandState → Option (Graph ℚ × RandState)
  | [], g, rs => some (g, rs)
  | edgeIt :: rest, g, rs =>
    let (r, rs) := randNext env rs
    let randomChance : ℚ := mkRat (Int.ofNat r) RAND_MAX
    if (randomChance.blt edgeChance) = true then
      if !isCyclic && edgeIt == nodeIt then
        initEdgesFor env size nodeIt edgeChance weightScale isCyclic isDirected rest g rs
      else
        let (rw, rs) := randNext env rs
        let edgeWeight : ℚ := ratMul (mkRat (Int.ofNat rw) RAND_MAX) weightScale
        match g.addEdge nodeIt edgeIt edgeWeight isDirected with
        | none => none
        | some g =>
          initEdgesFor env size nodeIt edgeChance weightScale isCyclic isDirected rest g rs
    else
      initEdgesFor env size nodeIt edgeChance weightScale isCyclic isDirected rest g rs

/-- The outer `nodeIt` loop of `Graph::InitializeGraph`: node weight,
inner edge loop, then the `isConnected` fix-up for nodes left with no
outgoing edge references. -/
def initNodesLoop (env : REnv) (size : Nat) (edgeChance weightScale : ℚ)
    (isCyclic isDirected isConnected : Bool) (retryFuel : Nat) :
    List Nat → Graph ℚ → RandState → Option (Graph ℚ × RandState)
  | [], g, rs => some (g, rs)
  | nodeIt :: rest, g, rs =>
    let (r, rs) := randNext env rs
    let w : ℚ := ratMul (mkRat (Int.ofNat r) RAND_MAX) weightScale
    let g := { g with nodes := listUpd g.nodes nodeIt (fun nd => { nd with weight := w }) }
    match initEdgesFor env size nodeIt edgeChance weightScale isCyclic isDirected
        (List.range size) g rs with
    | none => none
    | some (g, rs) =>
      if isConnected && (g.nodeRec nodeIt).edges.length == 0 then
        let (r1, rs) := randNext env rs
        let connectionIndex := r1 % size
        let (r2, rs) := randNext env rs
        let edgeWeight : ℚ := ratMul (mkRat (Int.ofNat r2) RAND_MAX) weightScale
        match redrawConnection env size nodeIt isCyclic retryFuel connectionIndex rs with
        | none => none
        | some (connectionIndex, rs) =>
          match g.addEdge nodeIt connectionIndex edgeWeight isDirected with
          | none => none
          | some g =>
            initNodesLoop env size edgeChance weightScale isCyclic isDirected isConnected
              retryFuel rest g rs
      else
        initNodesLoop env size edgeChance weightScale isCyclic isDirected isConnected
          retryFuel rest g rs

/-- `Graph::InitializeGraph(int, int, T, StorageType)` from `graph.h`
lines 367-409, instantiated at `T = float` (floats modelled by exact
rationals).  `timeSeed` is the external `time(NULL)` value, `retryFuel`
bounds the connectivity redraw loop; `none` means an `assert` fired or a
loop failed to terminate. -/
def initGraph (env : REnv) (g : Graph ℚ) (size : Nat) (flags : Nat)
    (weightScale : ℚ) (storage : Nat) (timeSeed : Int) (retryFuel : Nat)
    (es : EngineState) : Option (Graph ℚ × EngineState) :=
  let isSparse := flags &&& GraphCreationFlags_Sparse ≠ 0
  let isCyclic := flags &&& GraphCreationFlags_AllowCycles ≠ 0
  let isDirected := flags &&& GraphCreationFlags_Directed ≠ 0
  let isConnected := flags &&& GraphCreationFlags_Connected ≠ 0
  let isConsistent := flags &&& GraphCreationFlags_Consistent ≠ 0
  let g := { g with storageType := storage }
  let es := startRandomEngine isConsistent timeSeed es
  let edgeChance : ℚ :=
    if isSparse then mkRat (Int.ofNat maxSparseConnections) size else denseEdgeChance
  let g := g.initGraphStorage size
  match initNodesLoop env size edgeChance weightScale isCyclic isDirected isConnected
      retryFuel (List.range size) g es.rand with
  | none => none
  | some (g, rs) => some (g, { es with rand := rs })

end Graph

/-! ## Visitor protocol and traversal engine

A `GraphVisitor<T>` subclass can carry arbitrary mutable state, so a
visitor is modelled as a state machine over a state type `S`: each hook
maps the visitor state (and the `const Node<T>&` argument) to a new state
and, for the action-returning hooks, a `NodeAction`.  `m_visitSource` is
read once at the start of each traversal, so it is a plain field.

Traversals additionally record a ghost `trace` of events: one event per
hook invocation (with the returned action), plus `mark i` whenever the
engine sets the `visited` flag for the node at position `i`, `discover p i`
whenever it writes `p` into that node's `parent` field during edge
relaxation / `DFSStep` entry, and `rootAssign i` whenever BFS writes the
`ROOT_ID` sentinel there. -/

/-- Ghost trace events of a traversal run. -/
inductive Ev where
  | startVisit
  | endVisit
  | startComp
  | endComp
  | begin (i : Nat) (a : NodeAction)
  | process (i : Nat) (a : NodeAction)
  | endNode (i : Nat) (a : NodeAction)
  | already (i : Nat) (a : NodeAction)
  | mark (i : Nat)
  | discover (p : Int) (i : Nat)
  | rootAssign (i : Nat)
deriving DecidableEq, Repr

/-- The action a hook returned in an event, if any. -/
def Ev.action : Ev → Option NodeAction
  | .begin _ a => some a
  | .process _ a => some a
  | .endNode _ a => some a
  | .already _ a => some a
  | _ => none

/-- No hook invocation recorded in `t` returned `Abort`. -/
def NoAbort (t : List Ev) : Prop := ∀ e ∈ t, e.action ≠ some NodeAction.Abort

instance (t : List Ev) : Decidable (NoAbort t) := by
  unfold NoAbort; infer_instance

/-- `GraphVisitor<T>` as a state machine over visitor state `S`. -/
structure Visitor (T : Type) (S : Type) where
  visitSource : Int
  onStartVisit : S → S
  onEndVisit : S → S
  onStartComponentVisit : S → S
  onEndComponentVisit : S → S
  onBeginNodeProcess : S → GNode T → S × NodeAction
  onNodeProcess : S → GNode T → S × NodeAction
  onEndNodeProcess : S → GNode T → S × NodeAction
  onNodeAlreadyVisited : S → GNode T → S × NodeAction

/-- The default hook behaviour of the `GraphVisitor<T>` base class:
`m_visitSource = -1`, unit hooks do nothing, action hooks return
`Continue`. -/
def trivialVisitor (T S : Type) : Visitor T S :=
  { visitSource := -1
    onStartVisit := id
    onEndVisit := id
    onStartComponentVisit := id
    onEndComponentVisit := id
    onBeginNodeProcess := fun s _ => (s, NodeAction.Continue)
    onNodeProcess := fun s _ => (s, NodeAction.Continue)
    onEndNodeProcess := fun s _ => (s, NodeAction.Continue)
    onNodeAlreadyVisited := fun s _ => (s, NodeAction.Continue) }

/-- Per-run BFS state: the live `parent` fields of the nodes (indexed by
node position), the `visitedNodes` vector, the FIFO `visitQueue` of node
positions (the source queues `Node<T>*`; a pointer into `m_nodes` is its
position), the visitor state and the ghost trace. -/
structure BState (S : Type) where
  parents : List Int
  visited : List Bool
  queue : List Nat
  vs : S
  trace : List Ev
deriving DecidableEq, Repr

variable {S : Type}

/-- The `const Node<T>&` value a hook receives for the node at position
`i`: the stored record with its live `parent` field. -/
def hookNode [Inhabited T] (g : Graph T) (parents : List Int) (i : Nat) : GNode T :=
  { g.nodeRec i with parent := parents.getD i 0 }

/-- Invoke one action-returning hook on the node at position `i`,
recording the event built by `mk`. -/
def runHook [Inhabited T] (g : Graph T) (hook : S → GNode T → S × NodeAction)
    (mk : Nat → NodeAction → Ev) (i : Nat) (st : BState S) : BState S × NodeAction :=
  ({ st with
      vs := (hook st.vs (hookNode g st.parents i)).1
      trace := st.trace ++ [mk i (hook st.vs (hookNode g st.parents i)).2] },
    (hook st.vs (hookNode g st.parents i)).2)

/-- The scan of `BFSAddNextComponentNode`: the position of the first
`false` entry (`for(nodeIt...) if(visitedNodes[nodeIt] == false)`). -/
def firstUnvisited : List Bool → Option Nat
  | [] => none
  | b :: rest => if b then (firstUnvisited rest).map (fun j => j + 1) else some 0

/-- `Graph::BFSAddNextComponentNode` (lines 459-479): fire
`OnEndComponentVisit`, then scan node positions in increasing order for
the first unvisited one; if found, fire `OnStartComponentVisit`, set its
parent to `ROOT_ID` and enqueue it. -/
def bfsAddNext [Inhabited T] (_g : Graph T) (vis : Option (Visitor T S))
    (st : BState S) : BState S :=
  let st :=
    match vis with
    | some v => { st with vs := v.onEndComponentVisit st.vs, trace := st.trace ++ [Ev.endComp] }
    | none => st
  match firstUnvisited st.visited with
  | some i =>
    let st :=
      match vis with
      | some v =>
        { st with vs := v.onStartComponentVisit st.vs, trace := st.trace ++ [Ev.startComp] }
      | none => st
    { st with
      parents := st.parents.set i ROOT_ID
      trace := st.trace ++ [Ev.rootAssign i]
      queue := st.queue ++ [i] }
  | none => st

/-- `if(visitQueue.empty()) BFSAddNextComponentNode(...)`. -/
def maybeAddNext [Inhabited T] (g : Graph T) (vis : Option (Visitor T S))
    (st : BState S) : BState S :=
  if st.queue = [] then bfsAddNext g vis st else st

/-- Result of one iteration of the BFS main loop: continue looping, or
`break` out of it. -/
inductive IterOut (σ : Type) where
  | next (st : σ)
  | brk (st : σ)
deriving DecidableEq, Repr

/-- The edge loop of BFS (lines 552-560): for each edge reference of the
dequeued node, look up the edge, let `next` be its destination; set
`next.parent = crNode->id` if it is still `INVALID_ID`; enqueue `next`
unconditionally. -/
def relaxEdges [Inhabited T] (g : Graph T) (cur : Nat) (st : BState S) : BState S :=
  (g.nodeRec cur).edges.foldl
    (fun st eIdx =>
      let d := (g.edges.getD eIdx default).destination
      let st :=
        if st.parents.getD d 0 = INVALID_ID then
          { st with
            parents := st.parents.set d ((g.nodeIdAt cur : Int))
            trace := st.trace ++ [Ev.discover ((g.nodeIdAt cur : Int)) d] }
        else st
      { st with queue := st.queue ++ [d] })
    st

/-- Lines 552-572 of the BFS loop: relax edges, `OnEndNodeProcess`
(`Abort` breaks), then start the next component if the queue drained. -/
def bfsEdgePhase [Inhabited T] (g : Graph T) (vis : Option (Visitor T S)) (cur : Nat)
    (st : BState S) : IterOut (BState S) :=
  let st := relaxEdges g cur st
  match vis with
  | some v =>
    let (st, a) := runHook g v.onEndNodeProcess Ev.endNode cur st
    if a = NodeAction.Abort then IterOut.brk st else IterOut.next (maybeAddNext g vis st)
  | none => IterOut.next (maybeAddNext g vis st)

/-- Lines 538-550: flag the node visited, `OnNodeProcess` (`Abort`
breaks, `SkipChildren` skips the edge loop), then the edge phase. -/
def bfsProcessPhase [Inhabited T] (g : Graph T) (vis : Option (Visitor T S)) (cur : Nat)
    (st : BState S) : IterOut (BState S) :=
  let st :=
    { st with
      visited := st.visited.set (g.nodeIdAt cur) true
      trace := st.trace ++ [Ev.mark cur] }
  match vis with
  | some v =>
    let (st, a) := runHook g v.onNodeProcess Ev.process cur st
    if a = NodeAction.Abort then IterOut.brk st
    else if a = NodeAction.SkipChildren then IterOut.next (maybeAddNext g vis st)
    else bfsEdgePhase g vis cur st
  | none => bfsEdgePhase g vis cur st

/-- Lines 525-536: the already-visited check (`visitedNodes[crNode->id]`);
a revisited node fires `OnNodeAlreadyVisited` (`Abort` breaks) and
contributes nothing further. -/
def bfsVisitedPhase [Inhabited T] (g : Graph T) (vis : Option (Visitor T S)) (cur : Nat)
    (st : BState S) : IterOut (BState S) :=
  if st.visited.getD (g.nodeIdAt cur) false then
    match vis with
    | some v =>
      let (st, a) := runHook g v.onNodeAlreadyVisited Ev.already cur st
      if a = NodeAction.Abort then IterOut.brk st else IterOut.next (maybeAddNext g vis st)
    | none => IterOut.next (maybeAddNext g vis st)
  else
    bfsProcessPhase g vis cur st

/-- One iteration of the BFS `while` loop (lines 508-573), entered with
the dequeued node position `cur` (the state's queue already popped):
`OnBeginNodeProcess` (`Abort` breaks, `SkipChildren` skips the node),
then the visited check and the rest of the body. -/
def bfsIter [Inhabited T] (g : Graph T) (vis : Option (Visitor T S)) (cur : Nat)
    (st : BState S) : IterOut (BState S) :=
  match vis with
  | some v =>
    let (st, a) := runHook g v.onBeginNodeProcess Ev.begin cur st
    if a = NodeAction.Abort then IterOut.brk st
    else if a = NodeAction.SkipChildren then IterOut.next (maybeAddNext g vis st)
    else bfsVisitedPhase g vis cur st
  | none => bfsVisitedPhase g vis cur st

/-- The BFS main loop, with fuel (`none` = the loop did not terminate
within `fuel` iterations). -/
def bfsLoop [Inhabited T] (g : Graph T) (vis : Option (Visitor T S)) :
    Nat → BState S → Option (BState S)
  | 0, _ => none
  | fuel + 1, st =>
    match st.queue with
    | [] => some st
    | cur :: rest =>
      match bfsIter g vis cur { st with queue := rest } with
      | IterOut.brk st' => some st'
      | IterOut.next st' => bfsLoop g vis fuel st'

/-- The start node of a traversal: `max(GetVisitSource(), 0)` when a
visitor is attached, node `0` otherwise (BFS initializes `visitSource`
to `0`). -/
def startIndex (vis : Option (Visitor T S)) : Nat :=
  match vis with
  | some v => if v.visitSource < 0 then 0 else v.visitSource.toNat
  | none => 0

/-- `Graph::BFS(GraphVisitor<T>*)` from `graph.h` lines 481-580: early
return on an empty graph; `InvalidateParents`; enqueue the start node
with `parent = ROOT_ID`; `OnStartVisit`/`OnStartComponentVisit`; the main
loop; then the trailing `OnEndComponentVisit`/`OnEndVisit`. -/
def bfs [Inhabited T] (g : Graph T) (vis : Option (Visitor T S)) (s0 : S)
    (fuel : Nat) : Option (BState S) :=
  let n := g.nodes.length
  let st0 : BState S :=
    { parents := g.nodes.map (fun nd => nd.parent), visited := [], queue := [],
      vs := s0, trace := [] }
  if n = 0 then some st0
  else
    let st := { st0 with parents := List.replicate n INVALID_ID }
    let visitSource := startIndex vis
    let st :=
      { st with
        queue := [visitSource]
        parents := st.parents.set visitSource ROOT_ID
        trace := st.trace ++ [Ev.rootAssign visitSource]
        visited := List.replicate n false }
    let st :=
      match vis with
      | some v =>
        { st with
          vs := v.onStartComponentVisit (v.onStartVisit st.vs)
          trace := st.trace ++ [Ev.startVisit, Ev.startComp] }
      | none => st
    match bfsLoop g vis fuel st with
    | none => none
    | some st =>
      some
        (match vis with
          | some v =>
            { st with
              vs := v.onEndVisit (v.onEndComponentVisit st.vs)
              trace := st.trace ++ [Ev.endComp, Ev.endVisit] }
          | none => st)

/-! ## DFS

`DFSStep` (lines 582-632) is recursive; the embedding takes fuel and
returns `none` when it runs out (the source recursion need not terminate,
e.g. a cyclic graph walked with no visitor attached).  A successful call
returns the new state together with the `NodeAction` the function
returned; that action is an `Option NodeAction` because on the path where
every hook returns `Continue` (and on every path when no visitor is
attached) control falls off the end of the non-void function without
executing a `return`, which is modelled as `none`.  Call sites in the
source compare such an undefined value against `NodeAction_Abort`; the
embedding reads that comparison as false for `none`. -/

/-- Per-run DFS state (no queue; the recursion stack is implicit). -/
structure DState (S : Type) where
  parents : List Int
  visited : List Bool
  vs : S
  trace : List Ev
deriving DecidableEq, Repr

/-- Invoke one action-returning hook in DFS, recording its event. -/
def runDHook [Inhabited T] (g : Graph T) (hook : S → GNode T → S × NodeAction)
    (mk : Nat → NodeAction → Ev) (i : Nat) (st : DState S) : DState S × NodeAction :=
  ({ st with
      vs := (hook st.vs (hookNode g st.parents i)).1
      trace := st.trace ++ [mk i (hook st.vs (hookNode g st.parents i)).2] },
    (hook st.vs (hookNode g st.parents i)).2)

/-- One step of the `DFSStep` children loop (lines 608-616): look up the
edge, recurse via `step` into its destination, propagate `Abort` (and
exhausted fuel); a `Sum.inr` value means the loop broke out. -/
def dfsChildFold [Inhabited T] (g : Graph T)
    (step : Nat → DState S → Option (DState S × Option NodeAction))
    (acc : Sum (DState S) (Option (DState S × Option NodeAction))) (eIdx : Nat) :
    Sum (DState S) (Option (DState S × Option NodeAction)) :=
  match acc with
  | Sum.inr r => Sum.inr r
  | Sum.inl st =>
    let d := (g.edges.getD eIdx default).destination
    match step d st with
    | none => Sum.inr none
    | some (st', a) =>
      if a = some NodeAction.Abort then Sum.inr (some (st', a)) else Sum.inl st'

/-- `Graph::DFSStep` (lines 582-632) on the node at position `i` with
the `parent` argument `par`.  Structure, in source order:
the `visited[node.id]` check (which, when no visitor is attached, falls
through into the body instead of returning — the source `if` has no
`else`); flag visited; `node.parent = parent`; `OnBeginNodeProcess`
(any non-`Continue` action is returned at once); pre-order
`OnNodeProcess` (same); the children loop (a child returning `Abort` is
propagated; the local `skipChildren` flag of the source is never set and
is dead); post-order `OnNodeProcess` (`Abort` returns); `OnEndNodeProcess`
(`Abort` returns); otherwise control falls off the end (`none`). -/
def dfsStep [Inhabited T] (g : Graph T) (vis : Option (Visitor T S)) (order : DFSOrder) :
    Nat → Nat → Int → DState S → Option (DState S × Option NodeAction)
  | 0, _, _, _ => none
  | fuel + 1, i, par, st =>
    let alreadyRes : Option (DState S × Option NodeAction) :=
      if st.visited.getD (g.nodeIdAt i) false then
        match vis with
        | some v =>
          some
            (let p := runDHook g v.onNodeAlreadyVisited Ev.already i st
             (p.1, some p.2))
        | none => none
      else none
    match alreadyRes with
    | some r => some r
    | none =>
      let st :=
        { st with
          visited := st.visited.set (g.nodeIdAt i) true
          trace := st.trace ++ [Ev.mark i] }
      let st :=
        { st with
          parents := st.parents.set i par
          trace := st.trace ++ [Ev.discover par i] }
      let r1 : Sum (DState S) (DState S × Option NodeAction) :=
        match vis with
        | some v =>
          let p := runDHook g v.onBeginNodeProcess Ev.begin i st
          if p.2 ≠ NodeAction.Continue then Sum.inr (p.1, some p.2) else Sum.inl p.1
        | none => Sum.inl st
      match r1 with
      | Sum.inr r => some r
      | Sum.inl st =>
        let r2 : Sum (DState S) (DState S × Option NodeAction) :=
          match order, vis with
          | DFSOrder.PreOrder, some v =>
            let p := runDHook g v.onNodeProcess Ev.process i st
            if p.2 ≠ NodeAction.Continue then Sum.inr (p.1, some p.2) else Sum.inl p.1
          | _, _ => Sum.inl st
        match r2 with
        | Sum.inr r => some r
        | Sum.inl st =>
          let cres :=
            (g.nodeRec i).edges.foldl
              (dfsChildFold g
                (fun d stc => dfsStep g vis order fuel d ((g.nodeIdAt i : Int)) stc))
              (Sum.inl st : Sum (DState S) (Option (DState S × Option NodeAction)))
          match cres with
          | Sum.inr r => r
          | Sum.inl st =>
            match vis with
            | none => some (st, none)
            | some v =>
              let r3 : Sum (DState S) (DState S × Option NodeAction) :=
                if order = DFSOrder.PostOrder then
                  let p := runDHook g v.onNodeProcess Ev.process i st
                  if p.2 = NodeAction.Abort then Sum.inr (p.1, some p.2) else Sum.inl p.1
                else Sum.inl st
              match r3 with
              | Sum.inr r => some r
              | Sum.inl st =>
                let p := runDHook g v.onEndNodeProcess Ev.endNode i st
                if p.2 = NodeAction.Abort then some (p.1, some p.2)
                else some (p.1, none)

/-- The scan `for(nodeIt ...)` of the DFS driver (lines 662-675): skip
visited nodes; otherwise clear `allNodesVisited`, run `DFSStep` with the
node's own index as the `parent` argument, and on `Abort` set
`allNodesVisited` back to `true` and break. -/
def dfsFor [Inhabited T] (g : Graph T) (v : Visitor T S) (order : DFSOrder)
    (stepFuel : Nat) : List Nat → DState S → Bool → Option (DState S × Bool)
  | [], st, allV => some (st, allV)
  | i :: rest, st, allV =>
    if st.visited.getD i false then dfsFor g v order stepFuel rest st allV
    else
      match dfsStep g (some v) order stepFuel i ((i : Int)) st with
      | none => none
      | some (st', a) =>
        if a = some NodeAction.Abort then some (st', true)
        else dfsFor g v order stepFuel rest st' false

/-- The outer `while(!allNodesVisited)` loop of `Graph::DFS` (lines
653-678): `OnStartComponentVisit`; if the start node is unvisited run
`DFSStep` on it, its returned action discarded by the source; the scan
over all node positions; `OnEndComponentVisit`; repeat until the scan
left `allNodesVisited` set. -/
def dfsWhile [Inhabited T] (g : Graph T) (v : Visitor T S) (order : DFSOrder)
    (stepFuel : Nat) (visitSource : Nat) : Nat → DState S → Option (DState S)
  | 0, _ => none
  | loopFuel + 1, st =>
    let st :=
      { st with vs := v.onStartComponentVisit st.vs, trace := st.trace ++ [Ev.startComp] }
    let step1 : Option (DState S) :=
      if st.visited.getD visitSource false then some st
      else
        match dfsStep g (some v) order stepFuel visitSource ((visitSource : Int)) st with
        | none => none
        | some (st', _) => some st'
    match step1 with
    | none => none
    | some st =>
      match dfsFor g v order stepFuel (List.range g.nodes.length) st true with
      | none => none
      | some (st, allV) =>
        let st :=
          { st with vs := v.onEndComponentVisit st.vs, trace := st.trace ++ [Ev.endComp] }
        if allV then some st else dfsWhile g v order stepFuel visitSource loopFuel st

/-- Outcome of a `Graph::DFS` call: a final state, or undefined behaviour
(the `int visitSource` local is declared uninitialized and is only
assigned when a visitor is attached; with no visitor the subsequent
read `visitSource < 0` and the indexings with it are undefined). -/
inductive DfsOut (S : Type) where
  | ok (st : DState S)
  | undef
deriving DecidableEq, Repr

/-- `Graph::DFS(GraphVisitor<T>*, DFSOrder)` from `graph.h` lines
634-682: early return on the empty graph; `InvalidateParents`;
`OnStartVisit`; the uninitialized `visitSource` (undefined when no
visitor is attached); the outer component loop; `OnEndVisit`. -/
def dfs [Inhabited T] (g : Graph T) (vis : Option (Visitor T S)) (s0 : S)
    (order : DFSOrder) (stepFuel loopFuel : Nat) : Option (DfsOut S) :=
  let n := g.nodes.length
  let st0 : DState S :=
    { parents := g.nodes.map (fun nd => nd.parent), visited := [], vs := s0, trace := [] }
  if n = 0 then some (DfsOut.ok st0)
  else
    let st := { st0 with parents := List.replicate n INVALID_ID }
    match vis with
    | none => some (DfsOut.undef)
    | some v =>
      let st := { st with vs := v.onStartVisit st.vs, trace := st.trace ++ [Ev.startVisit] }
      let st := { st with visited := List.replicate n false }
      let visitSource := if v.visitSource < 0 then 0 else v.visitSource.toNat
      match dfsWhile g v order stepFuel visitSource loopFuel st with
      | none => none
      | some st =>
        some
          (DfsOut.ok
            { st with vs := v.onEndVisit st.vs, trace := st.trace ++ [Ev.endVisit] })

/-! ## Trace observations, well-formedness, and concrete fixtures -/

/-- Number of `mark i` events (the engine setting the visited flag of the
node at position `i`) in a trace. -/
def countMark (t : List Ev) (i : Nat) : Nat :=
  t.countP (fun e => decide (e = Ev.mark i))

/-- Number of `OnNodeProcess` invocations on the node at position `i`. -/
def countProcess (t : List Ev) (i : Nat) : Nat :=
  t.countP (fun e =>
    match e with
    | Ev.process j _ => decide (j = i)
    | _ => false)

/-- Number of `OnBeginNodeProcess` invocations on node position `i`. -/
def countBegin (t : List Ev) (i : Nat) : Nat :=
  t.countP (fun e =>
    match e with
    | Ev.begin j _ => decide (j = i)
    | _ => false)

/-- Number of `OnBeginNodeProcess` invocations on node position `i` that
returned `Continue`. -/
def countBeginCont (t : List Ev) (i : Nat) : Nat :=
  t.countP (fun e => decide (e = Ev.begin i NodeAction.Continue))

/-- Number of `OnStartComponentVisit` invocations. -/
def countStartComp (t : List Ev) : Nat :=
  t.countP (fun e => decide (e = Ev.startComp))

/-- Number of `OnEndComponentVisit` invocations. -/
def countEndComp (t : List Ev) : Nat :=
  t.countP (fun e => decide (e = Ev.endComp))

/-- The values successively written into the `parent` field of the node
at position `i` by edge relaxation (BFS) or `DFSStep` entry, in order. -/
def discoverers (t : List Ev) (i : Nat) : List Int :=
  t.filterMap (fun e =>
    match e with
    | Ev.discover p j => if j = i then some p else none
    | _ => none)

/-- Well-formedness of a graph as produced by the generator and by the
claims' constructions: the `id` field of every node equals its position,
and every edge record's destination is a valid node position. -/
def WF [Inhabited T] (g : Graph T) : Prop :=
  (∀ i ∈ List.range g.nodes.length, (g.nodeRec i).id = i) ∧
  ∀ e ∈ g.edges, e.destination < g.nodes.length

instance [Inhabited T] [DecidableEq T] (g : Graph T) : Decidable (WF g) := by
  unfold WF; infer_instance

instance [Inhabited S] : Inhabited (BState S) :=
  ⟨{ parents := [], visited := [], queue := [], vs := default, trace := [] }⟩

instance [Inhabited S] : Inhabited (DState S) :=
  ⟨{ parents := [], visited := [], vs := default, trace := [] }⟩

/-- The final trace of a DFS call, when it produced a defined state. -/
def dfsTrace : Option (DfsOut S) → Option (List Ev)
  | some (DfsOut.ok st) => some st.trace
  | _ => none

/-- The final `parent` fields after a DFS call, when defined. -/
def dfsParents : Option (DfsOut S) → Option (List Int)
  | some (DfsOut.ok st) => some st.parents
  | _ => none

/-- An `n`-node graph with adjacency-list storage selected and no edges
yet: node ids equal positions, parents start at `INVALID_ID`, exactly the
state `InitGraphStorage` produces. -/
def listGraph (n : Nat) : Graph Int :=
  { matrix := []
    storageType := StorageType_AdjacencyList
    nodes := (List.range n).map fun i =>
      { edges := [], weight := 0, parent := INVALID_ID, id := i }
    edges := [] }

/-- A visitor whose `OnNodeProcess` returns `Abort` (all other hooks
default). -/
def abortOnProcessVisitor : Visitor Int Unit :=
  { trivialVisitor Int Unit with onNodeProcess := fun s _ => (s, NodeAction.Abort) }

/-- A visitor whose `OnBeginNodeProcess` returns `SkipChildren` (all
other hooks default). -/
def skipAtBeginVisitor : Visitor Int Unit :=
  { trivialVisitor Int Unit with onBeginNodeProcess := fun s _ => (s, NodeAction.SkipChildren) }

/-- The undirected 4-cycle `0-1-2-3-0` of the spec's shortest-path
example, built through `AddEdge(s, d, 1, directed = false)` on list
storage. -/
def cycle4 : Option (Graph Int) :=
  ((listGraph 4).addEdge 0 1 1 false).bind fun g =>
    (g.addEdge 1 2 1 false).bind fun g =>
      (g.addEdge 2 3 1 false).bind fun g =>
        g.addEdge 3 0 1 false

/-- A concrete model of the C library generator for the reproducibility
claim: the stream (independent of any seed, since `srand` is never
reached) yields `0, 0, RAND_MAX, RAND_MAX, 0, 0, ...`. -/
def c6env : REnv :=
  { randFn := fun _ pos => [0, 0, RAND_MAX, RAND_MAX].getD pos 0 }

/-- A freshly constructed `Graph<float>` (no storage selected yet;
`InitializeGraph` installs the requested storage). -/
def freshQ : Graph ℚ := { matrix := [], nodes := [], edges := [], storageType := 0 }

/-- First `InitializeGraph(1, Consistent, 1.0, AdjacencyList)` call of a
process. -/
def c6run1 : Option (Graph ℚ × EngineState) :=
  Graph.initGraph c6env freshQ 1 GraphCreationFlags_Consistent (mkRat 1 1)
    StorageType_AdjacencyList 0 5 initialEngineState

/-- The engine state after the first call: `srand` still never invoked,
two `rand()` values consumed. -/
def c6es1 : EngineState :=
  { commonSeed := 1234, isRandomEngineOn := false, rand := { seedSet := none, pos := 2 } }

/-- Second identical `InitializeGraph` call of the same process. -/
def c6run2 : Option (Graph ℚ × EngineState) :=
  Graph.initGraph c6env freshQ 1 GraphCreationFlags_Consistent (mkRat 1 1)
    StorageType_AdjacencyList 0 5 c6es1

/-- The final state of `BFS` on the 2-node edgeless graph with the
default visitor, used to instantiate the universal traversal theorems. -/
def bfsRun2 : BState Unit :=
  (bfs (listGraph 2) (some (trivialVisitor Int Unit)) () 10).getD default

/-- The final state of `DFS` on the 2-node edgeless graph with the
default visitor. -/
def dfsRun2 : DState Unit :=
  match dfs (listGraph 2) (some (trivialVisitor Int Unit)) () DFSOrder.PreOrder 10 10 with
  | some (DfsOut.ok st) => st
  | _ => default

/-! ## Invariants used by the universal traversal theorems -/

/-- Events that are neither `mark`, `process`, `begin` nor `discover`
leave every count and the discoverer lists unchanged. -/
def NeutralEv (e : Ev) : Prop :=
  (∀ j, e ≠ Ev.mark j) ∧ (∀ j a, e ≠ Ev.process j a) ∧
  (∀ j a, e ≠ Ev.begin j a) ∧ (∀ p j, e ≠ Ev.discover p j)

/-- Some hook invocation recorded in `t` returned `Abort`. -/
def HasAbort (t : List Ev) : Prop := ∃ e ∈ t, e.action = some NodeAction.Abort

/-- The legal states of the `parent` field of the node at position `i`
during a BFS run over an `n`-node graph with trace `t`: made a component
root (`ROOT_ID`, with a recorded root assignment), or written exactly
once by edge relaxation with the discoverer's id, or untouched
(`INVALID_ID`, no write recorded, not visited). -/
def ParBranch (n : Nat) (t : List Ev) (p : Int) (vstd : Bool) (i : Nat) : Prop :=
  (p = ROOT_ID ∧ Ev.rootAssign i ∈ t) ∨
  (∃ j, j < n ∧ p = (j : Int) ∧ discoverers t i = [(j : Int)]) ∨
  (p = INVALID_ID ∧ discoverers t i = [] ∧ vstd = false)

/-- Invariant of the BFS main loop (visitor attached): array lengths
match the node count; the trace holds one `mark` per visited flag set;
`OnNodeProcess` fired exactly once per mark; every queued position is in
range with a non-`INVALID` parent; and every parent field is in one of
its three legal states. -/
structure BInv [Inhabited T] (g : Graph T) (st : BState S) : Prop where
  plen : st.parents.length = g.nodes.length
  vlen : st.visited.length = g.nodes.length
  marks : ∀ i, i < g.nodes.length →
    countMark st.trace i = if st.visited.getD i false then 1 else 0
  procs : ∀ i, i < g.nodes.length → countProcess st.trace i = countMark st.trace i
  que : ∀ q ∈ st.queue, q < g.nodes.length ∧ st.parents.getD q 0 ≠ INVALID_ID
  par : ∀ i, i < g.nodes.length →
    ParBranch g.nodes.length st.trace (st.parents.getD i 0) (st.visited.getD i false) i

/-- An empty queue certifies that every node has been visited (true of
every state the BFS loop can pause at, since the loop refills the queue
from `BFSAddNextComponentNode` whenever it drains). -/
def Drained [Inhabited T] (g : Graph T) (st : BState S) : Prop :=
  st.queue = [] → ∀ i, i < g.nodes.length → st.visited.getD i false = true

/-- Core specification of what a segment of DFS execution (visitor
attached) does to the run state, expressed on the trace segment `Δ` it
appended: visited nodes stay visited and receive no new `mark`/parent
write; an unvisited node either gets exactly one `mark` and one parent
write (whose value its parent field then holds) or is untouched; and
`OnBeginNodeProcess` fired exactly once per new `mark`. -/
structure DeltaCore (n : Nat) (st st' : DState S) (Δ : List Ev) : Prop where
  tr : st'.trace = st.trace ++ Δ
  plen : st'.parents.length = st.parents.length
  vlen : st'.visited.length = st.visited.length
  stay : ∀ k, k < n → st.visited.getD k false = true →
    st'.visited.getD k false = true ∧ countMark Δ k = 0 ∧
    discoverers Δ k = [] ∧ st'.parents.getD k 0 = st.parents.getD k 0
  fresh : ∀ k, k < n → st.visited.getD k false = false →
    (st'.visited.getD k false = true ∧ countMark Δ k = 1 ∧
      ∃ p, discoverers Δ k = [p] ∧ st'.parents.getD k 0 = p) ∨
    (st'.visited.getD k false = false ∧ countMark Δ k = 0 ∧
      discoverers Δ k = [] ∧ st'.parents.getD k 0 = st.parents.getD k 0)
  begins : ∀ k, k < n → countBegin Δ k = countMark Δ k

/-- `OnNodeProcess` fired exactly once per `Continue`-returning
`OnBeginNodeProcess` within the segment `Δ`. -/
def DeltaBalanced (n : Nat) (Δ : List Ev) : Prop :=
  ∀ k, k < n → countProcess Δ k = countBeginCont Δ k

/-- Invariant of the `DFSStep` children loop accumulator: a live state
extends the loop's entry state `stC0` by a valid delta; a broken-out
state additionally carries a recorded `Abort`. -/
def ChildFoldInv (n : Nat) (stC0 : DState S) :
    Sum (DState S) (Option (DState S × Option NodeAction)) → Prop
  | Sum.inl stx =>
    ∃ Δ, DeltaCore n stC0 stx Δ ∧ (DeltaBalanced n Δ ∨ HasAbort Δ)
  | Sum.inr none => True
  | Sum.inr (some (stx, r)) =>
    ∃ Δ, DeltaCore n stC0 stx Δ ∧ HasAbort Δ ∧ r = some NodeAction.Abort

/-! ## Helper lemmas: list access and trace counting -/

theorem getD_set_self {α : Type _} (l : List α) (i : Nat) (x d : α) (h : i < l.length) :
    (l.set i x).getD i d = x := by
  simp [List.getD, List.getElem?_set_self, h]

theorem getD_set_ne {α : Type _} (l : List α) {i k : Nat} (x d : α) (h : i ≠ k) :
    (l.set i x).getD k d = l.getD k d := by
  simp [List.getD, List.getElem?_set_ne, h]

theorem getD_replicate {α : Type _} {n i : Nat} (x d : α) (h : i < n) :
    (List.replicate n x).getD i d = x := by
  simp [List.getD, List.getElem?_replicate, h]

theorem firstUnvisited_some :
    ∀ {l : List Bool} {i : Nat}, firstUnvisited l = some i →
      i < l.length ∧ l.getD i true = false := by
  intro l
  induction l with
  | nil => intro i h; simp [firstUnvisited] at h
  | cons b rest ih =>
    intro i h
    by_cases hb : b
    · simp [firstUnvisited, hb] at h
      obtain ⟨j, hj, rfl⟩ := h
      obtain ⟨h1, h2⟩ := ih hj
      exact ⟨by simpa using h1, by simpa using h2⟩
    · simp [firstUnvisited, hb] at h
      subst h
      simpa using hb

theorem firstUnvisited_none :
    ∀ {l : List Bool}, firstUnvisited l = none →
      ∀ i, i < l.length → l.getD i false = true := by
  intro l
  induction l with
  | nil => intro _ i h; simp at h
  | cons b rest ih =>
    intro h i hi
    by_cases hb : b
    · cases i with
      | zero => simpa using hb
      | succ j =>
        simp [firstUnvisited, hb] at h
        exact ih (by simpa using h) j (by simpa using hi)
    · simp [firstUnvisited, hb] at h

theorem countMark_append (t₁ t₂ : List Ev) (i : Nat) :
    countMark (t₁ ++ t₂) i = countMark t₁ i + countMark t₂ i :=
  List.countP_append _ _ _

theorem countProcess_append (t₁ t₂ : List Ev) (i : Nat) :
    countProcess (t₁ ++ t₂) i = countProcess t₁ i + countProcess t₂ i :=
  List.countP_append _ _ _

theorem countBegin_append (t₁ t₂ : List Ev) (i : Nat) :
    countBegin (t₁ ++ t₂) i = countBegin t₁ i + countBegin t₂ i :=
  List.countP_append _ _ _

theorem countBeginCont_append (t₁ t₂ : List Ev) (i : Nat) :
    countBeginCont (t₁ ++ t₂) i = countBeginCont t₁ i + countBeginCont t₂ i :=
  List.countP_append _ _ _

theorem discoverers_append (t₁ t₂ : List Ev) (i : Nat) :
    discoverers (t₁ ++ t₂) i = discoverers t₁ i ++ discoverers t₂ i :=
  List.filterMap_append _ _ _

theorem countMark_singleton (e : Ev) (i : Nat) :
    countMark [e] i = if e = Ev.mark i then 1 else 0 := by
  simp [countMark, List.countP_cons]

theorem countProcess_singleton_process (j : Nat) (a : NodeAction) (i : Nat) :
    countProcess [Ev.process j a] i = if j = i then 1 else 0 := by
  by_cases h : j = i <;> simp [countProcess, List.countP_cons, h]

theorem countBegin_singleton_begin (j : Nat) (a : NodeAction) (i : Nat) :
    countBegin [Ev.begin j a] i = if j = i then 1 else 0 := by
  by_cases h : j = i <;> simp [countBegin, List.countP_cons, h]

theorem countBeginCont_singleton (e : Ev) (i : Nat) :
    countBeginCont [e] i = if e = Ev.begin i NodeAction.Continue then 1 else 0 := by
  simp [countBeginCont, List.countP_cons]

theorem discoverers_singleton_discover (p : Int) (j i : Nat) :
    discoverers [Ev.discover p j] i = if j = i then [p] else [] := by
  by_cases h : j = i <;> simp [discoverers, h]

theorem counts_singleton_neutral (e : Ev) (i : Nat) (h : NeutralEv e) :
    countMark [e] i = 0 ∧ countProcess [e] i = 0 ∧ countBegin [e] i = 0 ∧
    countBeginCont [e] i = 0 ∧ discoverers [e] i = [] := by
  obtain ⟨h1, h2, h3, h4⟩ := h
  cases e <;>
    first
      | (exact absurd rfl (h1 _))
      | (exact absurd rfl (h2 _ _))
      | (exact absurd rfl (h3 _ _))
      | (exact absurd rfl (h4 _ _))
      | (exact ⟨rfl, rfl, rfl, rfl, rfl⟩)

theorem noAbort_append {t₁ t₂ : List Ev} :
    NoAbort (t₁ ++ t₂) ↔ NoAbort t₁ ∧ NoAbort t₂ := by
  constructor
  · intro h
    exact ⟨fun e he => h e (List.mem_append_left _ he),
      fun e he => h e (List.mem_append_right _ he)⟩
  · rintro ⟨h₁, h₂⟩ e he
    rcases List.mem_append.mp he with h | h
    · exact h₁ e h
    · exact h₂ e h

theorem not_hasAbort_of_noAbort {t : List Ev} (h : NoAbort t) : ¬ HasAbort t := by
  rintro ⟨e, he, ha⟩
  exact h e he ha

/-! ## Helper lemmas: well-formed graphs and BFS state transformations -/

theorem nodeIdAt_eq [Inhabited T] {g : Graph T} (hwf : WF g) {i : Nat}
    (h : i < g.nodes.length) : g.nodeIdAt i = i :=
  hwf.1 i (List.mem_range.mpr h)

theorem destD_lt [Inhabited T] {g : Graph T} (hwf : WF g) (hn : 0 < g.nodes.length)
    (eIdx : Nat) : (g.edges.getD eIdx default).destination < g.nodes.length := by
  by_cases h : eIdx < g.edges.length
  · have hm : g.edges.getD eIdx default = g.edges[eIdx] := by
      simp [List.getD, List.getElem?_eq_getElem h]
    rw [hm]
    exact hwf.2 _ (List.getElem_mem h)
  · have hm : g.edges.getD eIdx default = default := by
      simp [List.getD, List.getElem?_eq_none (Nat.le_of_not_lt h)]
    rw [hm]
    exact hn

theorem runHook_fst [Inhabited T] (g : Graph T) (hook : S → GNode T → S × NodeAction)
    (mk : Nat → NodeAction → Ev) (i : Nat) (st : BState S) :
    (runHook g hook mk i st).1 =
      { st with
        vs := (hook st.vs (hookNode g st.parents i)).1
        trace := st.trace ++ [mk i (runHook g hook mk i st).2] } := rfl

theorem runDHook_fst [Inhabited T] (g : Graph T) (hook : S → GNode T → S × NodeAction)
    (mk : Nat → NodeAction → Ev) (i : Nat) (st : DState S) :
    (runDHook g hook mk i st).1 =
      { st with
        vs := (hook st.vs (hookNode g st.parents i)).1
        trace := st.trace ++ [mk i (runDHook g hook mk i st).2] } := rfl

theorem parBranch_append_keep {n : Nat} {t : List Ev} {p : Int} {vstd : Bool}
    {i : Nat} {e : Ev} (h0 : discoverers [e] i = []) :
    ParBranch n t p vstd i → ParBranch n (t ++ [e]) p vstd i := by
  have hdisc : discoverers (t ++ [e]) i = discoverers t i := by
    rw [discoverers_append, h0, List.append_nil]
  rintro (⟨h1, h2⟩ | ⟨j, hj, h1, h2⟩ | ⟨h1, h2, h3⟩)
  · exact Or.inl ⟨h1, List.mem_append_left _ h2⟩
  · exact Or.inr (Or.inl ⟨j, hj, h1, by rw [hdisc]; exact h2⟩)
  · exact Or.inr (Or.inr ⟨h1, by rw [hdisc]; exact h2, h3⟩)

theorem parBranch_append_nondiscover {n : Nat} {t : List Ev} {p : Int} {vstd : Bool}
    {i : Nat} (e : Ev) (hd : ∀ q j, e ≠ Ev.discover q j) :
    ParBranch n t p vstd i → ParBranch n (t ++ [e]) p vstd i := by
  apply parBranch_append_keep
  cases e with
  | discover q j => exact absurd rfl (hd q j)
  | _ => simp [discoverers]

theorem parBranch_not_invalid {n : Nat} {t : List Ev} {p : Int} {vstd : Bool} {i : Nat}
    (h : ParBranch n t p vstd i) (hp : p ≠ INVALID_ID) :
    (p = ROOT_ID ∧ Ev.rootAssign i ∈ t) ∨
      (∃ j, j < n ∧ p = (j : Int) ∧ discoverers t i = [(j : Int)]) := by
  rcases h with h | h | h
  · exact Or.inl h
  · exact Or.inr h
  · exact absurd h.1 hp

theorem parBranch_invalid {n : Nat} {t : List Ev} {vstd : Bool} {i : Nat}
    (h : ParBranch n t INVALID_ID vstd i) :
    discoverers t i = [] ∧ vstd = false := by
  rcases h with ⟨h1, _⟩ | ⟨j, _, h1, _⟩ | h
  · exact absurd h1 (by decide)
  · exfalso
    have hv : (INVALID_ID : Int) = -2 := rfl
    rw [hv] at h1
    omega
  · exact ⟨h.2.1, h.2.2⟩

theorem foldl_preserve {α β : Type _} (P : β → Prop) {f : β → α → β} {l : List α}
    (h : ∀ b a, P b → P (f b a)) : ∀ {b}, P b → P (l.foldl f b) := by
  induction l with
  | nil => intro b hb; exact hb
  | cons x xs ih => intro b hb; exact ih (h b x hb)

theorem countMark_append_other (t : List Ev) {e : Ev} (h : ∀ j, e ≠ Ev.mark j) (i : Nat) :
    countMark (t ++ [e]) i = countMark t i := by
  rw [countMark_append, countMark_singleton]
  simp [h i]

theorem countProcess_append_other (t : List Ev) {e : Ev} (h : ∀ j a, e ≠ Ev.process j a)
    (i : Nat) : countProcess (t ++ [e]) i = countProcess t i := by
  rw [countProcess_append]
  have h0 : countProcess [e] i = 0 := by
    cases e with
    | process j a => exact absurd rfl (h j a)
    | _ => simp [countProcess]
  omega

theorem countBegin_append_other (t : List Ev) {e : Ev} (h : ∀ j a, e ≠ Ev.begin j a)
    (i : Nat) : countBegin (t ++ [e]) i = countBegin t i := by
  rw [countBegin_append]
  have h0 : countBegin [e] i = 0 := by
    cases e with
    | begin j a => exact absurd rfl (h j a)
    | _ => simp [countBegin]
  omega

theorem countBeginCont_append_other (t : List Ev) {e : Ev} (h : ∀ j a, e ≠ Ev.begin j a)
    (i : Nat) : countBeginCont (t ++ [e]) i = countBeginCont t i := by
  rw [countBeginCont_append, countBeginCont_singleton]
  simp [h i NodeAction.Continue]

theorem discoverers_append_other (t : List Ev) {e : Ev} (h : ∀ p j, e ≠ Ev.discover p j)
    (i : Nat) : discoverers (t ++ [e]) i = discoverers t i := by
  rw [discoverers_append]
  have h0 : discoverers [e] i = [] := by
    cases e with
    | discover p j => exact absurd rfl (h p j)
    | _ => simp [discoverers]
  simp [h0]

theorem countMark_append_mark (t : List Ev) (j i : Nat) :
    countMark (t ++ [Ev.mark j]) i = countMark t i + (if j = i then 1 else 0) := by
  rw [countMark_append, countMark_singleton]
  by_cases h : j = i <;> simp [h]

theorem countProcess_append_process (t : List Ev) (j : Nat) (a : NodeAction) (i : Nat) :
    countProcess (t ++ [Ev.process j a]) i =
      countProcess t i + (if j = i then 1 else 0) := by
  rw [countProcess_append, countProcess_singleton_process]

theorem countBegin_append_begin (t : List Ev) (j : Nat) (a : NodeAction) (i : Nat) :
    countBegin (t ++ [Ev.begin j a]) i = countBegin t i + (if j = i then 1 else 0) := by
  rw [countBegin_append, countBegin_singleton_begin]

theorem countBeginCont_append_begin (t : List Ev) (j : Nat) (a : NodeAction) (i : Nat) :
    countBeginCont (t ++ [Ev.begin j a]) i =
      countBeginCont t i + (if j = i ∧ a = NodeAction.Continue then 1 else 0) := by
  rw [countBeginCont_append, countBeginCont_singleton]
  by_cases h : j = i
  · by_cases ha : a = NodeAction.Continue <;> simp [h, ha]
  · simp [h]

theorem discoverers_append_discover (t : List Ev) (p : Int) (j i : Nat) :
    discoverers (t ++ [Ev.discover p j]) i =
      discoverers t i ++ (if j = i then [p] else []) := by
  rw [discoverers_append, discoverers_singleton_discover]

theorem countMark_append_neutral (t : List Ev) {e : Ev} (h : NeutralEv e) (i : Nat) :
    countMark (t ++ [e]) i = countMark t i ∧
    countProcess (t ++ [e]) i = countProcess t i ∧
    countBegin (t ++ [e]) i = countBegin t i ∧
    countBeginCont (t ++ [e]) i = countBeginCont t i ∧
    discoverers (t ++ [e]) i = discoverers t i :=
  ⟨countMark_append_other t h.1 i, countProcess_append_other t h.2.1 i,
    countBegin_append_other t h.2.2.1 i, countBeginCont_append_other t h.2.2.1 i,
    discoverers_append_other t h.2.2.2 i⟩

theorem neutral_startVisit : NeutralEv Ev.startVisit := by
  refine ⟨?_, ?_, ?_, ?_⟩ <;> intros <;> simp

theorem neutral_endVisit : NeutralEv Ev.endVisit := by
  refine ⟨?_, ?_, ?_, ?_⟩ <;> intros <;> simp

theorem neutral_startComp : NeutralEv Ev.startComp := by
  refine ⟨?_, ?_, ?_, ?_⟩ <;> intros <;> simp

theorem neutral_endComp : NeutralEv Ev.endComp := by
  refine ⟨?_, ?_, ?_, ?_⟩ <;> intros <;> simp

theorem neutral_rootAssign (k : Nat) : NeutralEv (Ev.rootAssign k) := by
  refine ⟨?_, ?_, ?_, ?_⟩ <;> intros <;> simp

theorem neutral_endNode (k : Nat) (a : NodeAction) : NeutralEv (Ev.endNode k a) := by
  refine ⟨?_, ?_, ?_, ?_⟩ <;> intros <;> simp

theorem neutral_already (k : Nat) (a : NodeAction) : NeutralEv (Ev.already k a) := by
  refine ⟨?_, ?_, ?_, ?_⟩ <;> intros <;> simp

/-- The conjunction of state facts preserved across the BFS edge loop. -/
def RelaxPred [Inhabited T] (g : Graph T) (st : BState S) (stx : BState S) : Prop :=
  stx.visited = st.visited ∧ stx.parents.length = g.nodes.length ∧
  (∀ i, countMark stx.trace i = countMark st.trace i ∧
    countProcess stx.trace i = countProcess st.trace i ∧
    countBegin stx.trace i = countBegin st.trace i ∧
    countBeginCont stx.trace i = countBeginCont st.trace i) ∧
  (∀ q ∈ stx.queue, q < g.nodes.length ∧ stx.parents.getD q 0 ≠ INVALID_ID) ∧
  (∀ i, i < g.nodes.length →
    ParBranch g.nodes.length stx.trace (stx.parents.getD i 0)
      (stx.visited.getD i false) i)

/-- What the BFS edge loop (lines 552-560) does to the run state: visited
flags and the hook/mark/process record are untouched, every enqueued
position is a valid destination whose parent is no longer `INVALID`, and
every parent field stays within its legal states. -/
theorem relaxEdges_spec [Inhabited T] {g : Graph T} {cur : Nat} (hwf : WF g)
    (hcur : cur < g.nodes.length) (st : BState S)
    (hplen : st.parents.length = g.nodes.length)
    (hq : ∀ q ∈ st.queue, q < g.nodes.length ∧ st.parents.getD q 0 ≠ INVALID_ID)
    (hpar : ∀ i, i < g.nodes.length →
      ParBranch g.nodes.length st.trace (st.parents.getD i 0)
        (st.visited.getD i false) i) :
    RelaxPred g st (relaxEdges g cur st) := by
  have hn : 0 < g.nodes.length := Nat.lt_of_le_of_lt (Nat.zero_le _) hcur
  have hid : g.nodeIdAt cur = cur := nodeIdAt_eq hwf hcur
  unfold relaxEdges
  apply foldl_preserve (RelaxPred g st)
  · intro stx eIdx hP
    obtain ⟨hv, hpl, hc, hqx, hpx⟩ := hP
    set d := (g.edges.getD eIdx default).destination with hdDef
    have hd : d < g.nodes.length := destD_lt hwf hn eIdx
    dsimp only
    rw [hid]
    by_cases hinv : stx.parents.getD d 0 = INVALID_ID
    · rw [if_pos hinv]
      refine ⟨hv, ?_, ?_, ?_, ?_⟩
      · simpa using hpl
      · intro i
        exact ⟨countMark_append_other _ (by intro j; simp) i |>.trans (hc i).1,
          countProcess_append_other _ (by intro j a; simp) i |>.trans (hc i).2.1,
          countBegin_append_other _ (by intro j a; simp) i |>.trans (hc i).2.2.1,
          countBeginCont_append_other _ (by intro j a; simp) i |>.trans (hc i).2.2.2⟩
      · intro q hqm
        rcases List.mem_append.mp hqm with hq1 | hq2
        · obtain ⟨hlt, hne⟩ := hqx q hq1
          refine ⟨hlt, ?_⟩
          by_cases hqd : q = d
          · subst hqd
            rw [getD_set_self _ _ _ _ (by omega)]
            intro hcon
            have : (INVALID_ID : Int) = -2 := rfl
            omega
          · rw [getD_set_ne _ _ _ (fun h => hqd h.symm)]
            exact hne
        · have : q = d := by simpa using hq2
          subst this
          refine ⟨hd, ?_⟩
          rw [getD_set_self _ _ _ _ (by omega)]
          intro hcon
          have : (INVALID_ID : Int) = -2 := rfl
          omega
      · intro i hi
        by_cases hieq : i = d
        · rw [hieq]
          have hb := hpx d (hieq ▸ hi)
          rw [hinv] at hb
          obtain ⟨hdisc0, _⟩ := parBranch_invalid hb
          refine Or.inr (Or.inl ⟨cur, hcur, ?_, ?_⟩)
          · rw [getD_set_self _ _ _ _ (by omega)]
          · rw [discoverers_append_discover, hdisc0, if_pos rfl]
            simp
        · have hpeq : (stx.parents.set d (cur : Int)).getD i 0 = stx.parents.getD i 0 :=
            getD_set_ne _ _ _ (fun h => hieq h.symm)
          rw [hpeq]
          refine parBranch_append_keep ?_ (hpx i hi)
          rw [discoverers_singleton_discover, if_neg (fun h => hieq h.symm)]
    · rw [if_neg hinv]
      refine ⟨hv, hpl, hc, ?_, hpx⟩
      intro q hqm
      rcases List.mem_append.mp hqm with hq1 | hq2
      · exact hqx q hq1
      · have : q = d := by simpa using hq2
        subst this
        exact ⟨hd, hinv⟩
  · exact ⟨rfl, hplen, fun i => ⟨rfl, rfl, rfl, rfl⟩, hq, hpar⟩

theorem getD_lt {α : Type _} {l : List α} {i : Nat} (d : α) (h : i < l.length) :
    l.getD i d = l[i] := by
  simp [List.getD, List.getElem?_eq_getElem h]

/-- Counts of a trace segment consisting of neutral events only. -/
theorem counts_neutral_list {es : List Ev} (h : ∀ e ∈ es, NeutralEv e) (i : Nat) :
    countMark es i = 0 ∧ countProcess es i = 0 ∧ countBegin es i = 0 ∧
    countBeginCont es i = 0 ∧ discoverers es i = [] := by
  induction es with
  | nil => exact ⟨rfl, rfl, rfl, rfl, rfl⟩
  | cons e es ih =>
    obtain ⟨hm, hp, hb, hbc, hd⟩ := ih (fun x hx => h x (List.mem_cons_of_mem _ hx))
    have he := h e (List.mem_cons_self _ _)
    obtain ⟨sm, sp, sb, sbc, sd⟩ := counts_singleton_neutral e i he
    have hsplit : e :: es = [e] ++ es := rfl
    rw [hsplit, countMark_append, countProcess_append, countBegin_append,
      countBeginCont_append, discoverers_append, sm, sp, sb, sbc, sd, hm, hp, hb, hbc, hd]
    exact ⟨rfl, rfl, rfl, rfl, rfl⟩

/-- Extending the trace with events recording no parent write preserves a
parent field's legal state. -/
theorem parBranch_append_list {n : Nat} {t : List Ev} {p : Int} {vstd : Bool}
    {i : Nat} {es : List Ev} (h0 : discoverers es i = []) :
    ParBranch n t p vstd i → ParBranch n (t ++ es) p vstd i := by
  have hdisc : discoverers (t ++ es) i = discoverers t i := by
    rw [discoverers_append, h0, List.append_nil]
  rintro (⟨h1, h2⟩ | ⟨j, hj, h1, h2⟩ | ⟨h1, h2, h3⟩)
  · exact Or.inl ⟨h1, List.mem_append_left _ h2⟩
  · exact Or.inr (Or.inl ⟨j, hj, h1, by rw [hdisc]; exact h2⟩)
  · exact Or.inr (Or.inr ⟨h1, by rw [hdisc]; exact h2, h3⟩)

/-- Appending events holding no `mark`, no `process` and no parent write
(and arbitrarily changing the visitor state) preserves the BFS
invariant. -/
theorem bInv_extend [Inhabited T] {g : Graph T} (st : BState S) (s' : S) (es : List Ev)
    (hm : ∀ k, countMark es k = 0) (hp : ∀ k, countProcess es k = 0)
    (hd : ∀ k, discoverers es k = []) (hinv : BInv g st) :
    BInv g { st with vs := s', trace := st.trace ++ es } := by
  refine ⟨hinv.plen, hinv.vlen, ?_, ?_, hinv.que, ?_⟩
  · intro i hi
    show countMark (st.trace ++ es) i = _
    rw [countMark_append, hm i, Nat.add_zero]
    exact hinv.marks i hi
  · intro i hi
    show countProcess (st.trace ++ es) i = countMark (st.trace ++ es) i
    rw [countMark_append, countProcess_append, hm i, hp i, Nat.add_zero, Nat.add_zero]
    exact hinv.procs i hi
  · intro i hi
    exact parBranch_append_list (hd i) (hinv.par i hi)

/-- Once a node's parent is no longer `INVALID`, its legal-state
disjunction no longer depends on the visited flag. -/
theorem parBranch_set_visited {n : Nat} {t : List Ev} {p : Int} {vstd vstd' : Bool}
    {i : Nat} (h : ParBranch n t p vstd i) (hp : p ≠ INVALID_ID) :
    ParBranch n t p vstd' i := by
  rcases parBranch_not_invalid h hp with h | h
  · exact Or.inl h
  · exact Or.inr (Or.inl h)

/-- Flagging an unvisited queued node visited and firing `OnNodeProcess`
on it preserves the BFS invariant. -/
theorem bInv_mark_process [Inhabited T] {g : Graph T} (st : BState S) {cur : Nat}
    (hcur : cur < g.nodes.length) (hvis : st.visited.getD cur false = false)
    (hpc : st.parents.getD cur 0 ≠ INVALID_ID) (hinv : BInv g st)
    (s3 : S) (a3 : NodeAction) :
    BInv g
      { st with
        visited := st.visited.set cur true
        vs := s3
        trace := st.trace ++ [Ev.mark cur] ++ [Ev.process cur a3] } := by
  have hassoc : st.trace ++ [Ev.mark cur] ++ [Ev.process cur a3] =
      st.trace ++ [Ev.mark cur, Ev.process cur a3] := by simp
  have hvlen : cur < st.visited.length := by rw [hinv.vlen]; exact hcur
  refine ⟨hinv.plen, by simpa using hinv.vlen, ?_, ?_, hinv.que, ?_⟩
  · intro k hk
    show countMark (st.trace ++ [Ev.mark cur] ++ [Ev.process cur a3]) k = _
    rw [hassoc, countMark_append]
    by_cases hkc : k = cur
    · subst hkc
      have h1 : countMark [Ev.mark k, Ev.process k a3] k = 1 := by
        simp [countMark, List.countP_cons]
      rw [h1, hinv.marks k hk, hvis]
      show 0 + 1 = _
      rw [getD_set_self _ _ _ _ hvlen]
      rfl
    · have hck : cur ≠ k := fun h => hkc h.symm
      have h1 : countMark [Ev.mark cur, Ev.process cur a3] k = 0 := by
        simp [countMark, List.countP_cons, hck]
      rw [h1, Nat.add_zero, getD_set_ne _ _ _ hck]
      exact hinv.marks k hk
  · intro k hk
    show countProcess (st.trace ++ [Ev.mark cur] ++ [Ev.process cur a3]) k =
      countMark (st.trace ++ [Ev.mark cur] ++ [Ev.process cur a3]) k
    rw [hassoc, countProcess_append, countMark_append]
    by_cases hkc : k = cur
    · subst hkc
      have h1 : countMark [Ev.mark k, Ev.process k a3] k = 1 := by
        simp [countMark, List.countP_cons]
      have h2 : countProcess [Ev.mark k, Ev.process k a3] k = 1 := by
        simp [countProcess, List.countP_cons]
      rw [h1, h2, hinv.procs k hk]
    · have hck : cur ≠ k := fun h => hkc h.symm
      have h1 : countMark [Ev.mark cur, Ev.process cur a3] k = 0 := by
        simp [countMark, List.countP_cons, hck]
      have h2 : countProcess [Ev.mark cur, Ev.process cur a3] k = 0 := by
        simp [countProcess, List.countP_cons, hck]
      rw [h1, h2, hinv.procs k hk]
  · intro k hk
    show ParBranch g.nodes.length (st.trace ++ [Ev.mark cur] ++ [Ev.process cur a3])
      (st.parents.getD k 0) ((st.visited.set cur true).getD k false) k
    rw [hassoc]
    have hd : discoverers [Ev.mark cur, Ev.process cur a3] k = [] := by
      simp [discoverers]
    by_cases hkc : k = cur
    · subst hkc
      exact parBranch_append_list hd
        (parBranch_set_visited (hinv.par k hk) hpc)
    · rw [getD_set_ne _ _ _ (fun h => hkc h.symm)]
      exact parBranch_append_list hd (hinv.par k hk)

/-- `BFSAddNextComponentNode` preserves the BFS invariant, and its result
can only leave the queue empty when every node is visited. -/
theorem bfsAddNext_spec [Inhabited T] {g : Graph T} {v : Visitor T S} {st : BState S}
    (hinv : BInv g st) :
    BInv g (bfsAddNext g (some v) st) ∧ Drained g (bfsAddNext g (some v) st) := by
  unfold bfsAddNext
  dsimp only
  cases hfu : firstUnvisited st.visited with
  | none =>
    have hne : ∀ e ∈ [Ev.endComp], NeutralEv e := by
      intro e he; simp at he; rw [he]; exact neutral_endComp
    refine ⟨bInv_extend st _ [Ev.endComp] (fun k => (counts_neutral_list hne k).1)
      (fun k => (counts_neutral_list hne k).2.1)
      (fun k => (counts_neutral_list hne k).2.2.2.2) hinv, ?_⟩
    intro _ i hi
    exact firstUnvisited_none hfu i (by rw [hinv.vlen]; exact hi)
  | some i =>
    obtain ⟨hilen, _⟩ := firstUnvisited_some hfu
    have hi : i < g.nodes.length := by rw [← hinv.vlen]; exact hilen
    have hneutral : ∀ e ∈ [Ev.endComp, Ev.startComp, Ev.rootAssign i], NeutralEv e := by
      intro e he
      simp at he
      rcases he with h | h | h <;> rw [h]
      · exact neutral_endComp
      · exact neutral_startComp
      · exact neutral_rootAssign i
    have hassoc : st.trace ++ [Ev.endComp] ++ [Ev.startComp] ++ [Ev.rootAssign i] =
        st.trace ++ [Ev.endComp, Ev.startComp, Ev.rootAssign i] := by
      simp
    constructor
    · refine ⟨?_, ?_, ?_, ?_, ?_, ?_⟩
      · simpa using hinv.plen
      · exact hinv.vlen
      · intro k hk
        show countMark (st.trace ++ [Ev.endComp] ++ [Ev.startComp] ++ [Ev.rootAssign i]) k = _
        rw [hassoc, countMark_append, (counts_neutral_list hneutral k).1, Nat.add_zero]
        exact hinv.marks k hk
      · intro k hk
        show countProcess (st.trace ++ [Ev.endComp] ++ [Ev.startComp] ++ [Ev.rootAssign i]) k
          = countMark (st.trace ++ [Ev.endComp] ++ [Ev.startComp] ++ [Ev.rootAssign i]) k
        rw [hassoc, countMark_append, countProcess_append,
          (counts_neutral_list hneutral k).1, (counts_neutral_list hneutral k).2.1,
          Nat.add_zero, Nat.add_zero]
        exact hinv.procs k hk
      · intro q hqm
        simp only [List.mem_append] at hqm
        rcases hqm with hq1 | hq2
        · obtain ⟨hlt, hne⟩ := hinv.que q hq1
          refine ⟨hlt, ?_⟩
          by_cases hqi : q = i
          · subst hqi
            show (st.parents.set q ROOT_ID).getD q 0 ≠ INVALID_ID
            rw [getD_set_self _ _ _ _ (by rw [hinv.plen]; exact hi)]
            decide
          · show (st.parents.set i ROOT_ID).getD q 0 ≠ INVALID_ID
            rw [getD_set_ne _ _ _ (fun h => hqi h.symm)]
            exact hne
        · have hqi : q = i := by simpa using hq2
          subst hqi
          refine ⟨hi, ?_⟩
          show (st.parents.set q ROOT_ID).getD q 0 ≠ INVALID_ID
          rw [getD_set_self _ _ _ _ (by rw [hinv.plen]; exact hi)]
          decide
      · intro k hk
        show ParBranch g.nodes.length
          (st.trace ++ [Ev.endComp] ++ [Ev.startComp] ++ [Ev.rootAssign i])
          ((st.parents.set i ROOT_ID).getD k 0) (st.visited.getD k false) k
        rw [hassoc]
        by_cases hki : k = i
        · subst hki
          refine Or.inl ⟨?_, ?_⟩
          · rw [getD_set_self _ _ _ _ (by rw [hinv.plen]; exact hk)]
          · refine List.mem_append_right _ ?_
            simp
        · rw [getD_set_ne _ _ _ (fun h => hki h.symm)]
          exact parBranch_append_list (counts_neutral_list hneutral k).2.2.2.2
            (hinv.par k hk)
    · intro hq
      exfalso
      simp at hq

/-- The queue-refill step at the loop's drain points preserves the BFS
invariant and establishes `Drained`. -/
theorem maybeAddNext_spec [Inhabited T] {g : Graph T} {v : Visitor T S} {st : BState S}
    (hinv : BInv g st) :
    BInv g (maybeAddNext g (some v) st) ∧ Drained g (maybeAddNext g (some v) st) := by
  unfold maybeAddNext
  by_cases hq : st.queue = []
  · rw [if_pos hq]
    exact bfsAddNext_spec hinv
  · rw [if_neg hq]
    exact ⟨hinv, fun h => absurd h hq⟩

/-- The begin/already/endNode hook events carry no mark, no process and
no parent write. -/
theorem hookEv_counts (mkKind : Nat) (j : Nat) (a : NodeAction) :
    ∀ k, countMark [if mkKind = 0 then Ev.begin j a else
        if mkKind = 1 then Ev.already j a else Ev.endNode j a] k = 0 := by
  intro k
  by_cases h0 : mkKind = 0 <;> by_cases h1 : mkKind = 1 <;>
    simp [h0, h1, countMark, List.countP_cons]

/-- One iteration of the BFS main loop (visitor attached) preserves the
invariant and re-establishes `Drained`; a `break` leaves an
`Abort`-returning hook event on the trace. -/
theorem bfsIter_spec [Inhabited T] {g : Graph T} (v : Visitor T S) {cur : Nat}
    (st : BState S) (hwf : WF g) (hcur : cur < g.nodes.length)
    (hpc : st.parents.getD cur 0 ≠ INVALID_ID) (hinv : BInv g st) :
    (match bfsIter g (some v) cur st with
      | IterOut.next st' => BInv g st' ∧ Drained g st'
      | IterOut.brk st' => HasAbort st'.trace) := by
  have hid : g.nodeIdAt cur = cur := nodeIdAt_eq hwf hcur
  unfold bfsIter
  rcases hb : v.onBeginNodeProcess st.vs (hookNode g st.parents cur) with ⟨s1, a1⟩
  simp only [runHook, hb]
  have hinvB : BInv g { st with vs := s1, trace := st.trace ++ [Ev.begin cur a1] } :=
    bInv_extend st s1 [Ev.begin cur a1]
      (fun k => by simp [countMark, List.countP_cons])
      (fun k => by simp [countProcess, List.countP_cons])
      (fun k => by simp [discoverers]) hinv
  cases a1 with
  | Abort =>
    rw [if_pos rfl]
    exact ⟨Ev.begin cur NodeAction.Abort, List.mem_append_right _ (by simp), rfl⟩
  | SkipChildren =>
    rw [if_neg (by decide), if_pos rfl]
    exact maybeAddNext_spec hinvB
  | Continue =>
    rw [if_neg (by decide), if_neg (by decide)]
    unfold bfsVisitedPhase
    dsimp only
    rw [hid]
    by_cases hvis : st.visited.getD cur false = true
    · rw [if_pos hvis]
      rcases h2 : v.onNodeAlreadyVisited s1 (hookNode g st.parents cur) with ⟨s2, a2⟩
      simp only [runHook, h2]
      have hinvA : BInv g
          { st with
            vs := s2
            trace := st.trace ++ [Ev.begin cur NodeAction.Continue]
              ++ [Ev.already cur a2] } := by
        have := bInv_extend
          { st with vs := s1, trace := st.trace ++ [Ev.begin cur NodeAction.Continue] }
          s2 [Ev.already cur a2]
          (fun k => by simp [countMark, List.countP_cons])
          (fun k => by simp [countProcess, List.countP_cons])
          (fun k => by simp [discoverers]) hinvB
        exact this
      cases a2 with
      | Abort =>
        rw [if_pos rfl]
        exact ⟨Ev.already cur NodeAction.Abort, List.mem_append_right _ (by simp), rfl⟩
      | Continue =>
        rw [if_neg (by decide)]
        exact maybeAddNext_spec hinvA
      | SkipChildren =>
        rw [if_neg (by decide)]
        exact maybeAddNext_spec hinvA
    · rw [if_neg hvis]
      unfold bfsProcessPhase
      dsimp only
      rw [hid]
      have hvisF : st.visited.getD cur false = false := by
        cases hx : st.visited.getD cur false
        · rfl
        · exact absurd hx hvis
      rcases h3 : v.onNodeProcess s1 (hookNode g st.parents cur) with ⟨s3, a3⟩
      simp only [runHook, h3]
      have hinvP : BInv g
          { st with
            visited := st.visited.set cur true
            vs := s3
            trace := st.trace ++ [Ev.begin cur NodeAction.Continue] ++ [Ev.mark cur]
              ++ [Ev.process cur a3] } := by
        have hstep := bInv_mark_process
            { st with vs := s1, trace := st.trace ++ [Ev.begin cur NodeAction.Continue] }
          hcur (by simpa using hvisF) (by simpa using hpc) hinvB s3 a3
        simpa using hstep
      cases a3 with
      | Abort =>
        rw [if_pos rfl]
        refine ⟨Ev.process cur NodeAction.Abort, ?_, rfl⟩
        exact List.mem_append_right _ (by simp)
      | SkipChildren =>
        rw [if_neg (by decide), if_pos rfl]
        exact maybeAddNext_spec hinvP
      | Continue =>
        rw [if_neg (by decide), if_neg (by decide)]
        unfold bfsEdgePhase
        dsimp only
        set stP : BState S :=
          { st with
            visited := st.visited.set cur true
            vs := s3
            trace := st.trace ++ [Ev.begin cur NodeAction.Continue] ++ [Ev.mark cur]
              ++ [Ev.process cur NodeAction.Continue] } with hstP
        have hrel := relaxEdges_spec hwf hcur stP hinvP.plen hinvP.que
          (hinvP.par)
        obtain ⟨hrv, hrpl, hrc, hrq, hrp⟩ := hrel
        have hinvR : BInv g (relaxEdges g cur stP) := by
          refine ⟨hrpl, ?_, ?_, ?_, hrq, ?_⟩
          · rw [hrv]; exact hinvP.vlen
          · intro k hk
            rw [(hrc k).1, hrv]
            exact hinvP.marks k hk
          · intro k hk
            rw [(hrc k).1, (hrc k).2.1]
            exact hinvP.procs k hk
          · exact hrp
        rcases h4 : v.onEndNodeProcess (relaxEdges g cur stP).vs
            (hookNode g (relaxEdges g cur stP).parents cur) with ⟨s4, a4⟩
        simp only [runHook, h4]
        have hinvE : BInv g
            { relaxEdges g cur stP with
              vs := s4
              trace := (relaxEdges g cur stP).trace ++ [Ev.endNode cur a4] } :=
          bInv_extend (relaxEdges g cur stP) s4 [Ev.endNode cur a4]
            (fun k => by simp [countMark, List.countP_cons])
            (fun k => by simp [countProcess, List.countP_cons])
            (fun k => by simp [discoverers]) hinvR
        cases a4 with
        | Abort =>
          rw [if_pos rfl]
          exact ⟨Ev.endNode cur NodeAction.Abort, List.mem_append_right _ (by simp), rfl⟩
        | Continue =>
          rw [if_neg (by decide)]
          exact maybeAddNext_spec hinvE
        | SkipChildren =>
          rw [if_neg (by decide)]
          exact maybeAddNext_spec hinvE

/-- The BFS main loop: a completed run from an invariant, `Drained` state
ends in an invariant state with an empty queue, unless some hook returned
`Abort` (which the trace then records). -/
theorem bfsLoop_spec [Inhabited T] {g : Graph T} {v : Visitor T S} (hwf : WF g) :
    ∀ (fuel : Nat) (st st' : BState S), BInv g st → Drained g st →
      bfsLoop g (some v) fuel st = some st' →
      (BInv g st' ∧ st'.queue = [] ∧ Drained g st') ∨ HasAbort st'.trace := by
  intro fuel
  induction fuel with
  | zero =>
    intro st st' _ _ h
    simp [bfsLoop] at h
  | succ f ih =>
    intro st st' hinv hdr hrun
    rw [bfsLoop] at hrun
    cases hq : st.queue with
    | nil =>
      rw [hq] at hrun
      simp at hrun
      subst hrun
      exact Or.inl ⟨hinv, hq, hdr⟩
    | cons cur rest =>
      rw [hq] at hrun
      simp only at hrun
      have hcurM : cur ∈ st.queue := by rw [hq]; exact List.mem_cons_self _ _
      obtain ⟨hcur, hpc⟩ := hinv.que cur hcurM
      have hinvPop : BInv g { st with queue := rest } := by
        refine ⟨hinv.plen, hinv.vlen, hinv.marks, hinv.procs, ?_, hinv.par⟩
        intro q hqm
        exact hinv.que q (by rw [hq]; exact List.mem_cons_of_mem _ hqm)
      have hiter := bfsIter_spec v { st with queue := rest } hwf hcur hpc hinvPop
      cases hres : bfsIter g (some v) cur { st with queue := rest } with
      | brk st1 =>
        rw [hres] at hrun hiter
        simp at hrun
        subst hrun
        exact Or.inr hiter
      | next st1 =>
        rw [hres] at hrun hiter
        exact ih st1 st' hiter.1 hiter.2 hrun

/-- A completed BFS run with a visitor attached and no `Abort`: every
node is marked visited exactly once, `OnNodeProcess` fired exactly once
per node, and every parent field is the `ROOT` sentinel of a recorded
component start or the id of the unique node recorded as discovering
it. -/
theorem bfs_final [Inhabited T] {g : Graph T} {v : Visitor T S} {s0 : S} {fuel : Nat}
    {out : BState S} (hwf : WF g) (hsrc : startIndex (some v) < g.nodes.length)
    (hrun : bfs g (some v) s0 fuel = some out) (hna : NoAbort out.trace) :
    ∀ i, i < g.nodes.length →
      countMark out.trace i = 1 ∧ countProcess out.trace i = 1 ∧
      ((out.parents.getD i 0 = ROOT_ID ∧ Ev.rootAssign i ∈ out.trace) ∨
        (∃ j, j < g.nodes.length ∧ out.parents.getD i 0 = (j : Int) ∧
          discoverers out.trace i = [(j : Int)])) := by
  have hn : g.nodes.length ≠ 0 := by
    intro h
    rw [h] at hsrc
    exact Nat.not_lt_zero _ hsrc
  set vs0 := startIndex (some v) with hvs0
  unfold bfs at hrun
  rw [if_neg hn] at hrun
  dsimp only at hrun
  set stI : BState S :=
    { parents := (List.replicate g.nodes.length INVALID_ID).set vs0 ROOT_ID
      visited := List.replicate g.nodes.length false
      queue := [vs0]
      vs := v.onStartComponentVisit (v.onStartVisit s0)
      trace := [] ++ [Ev.rootAssign vs0] ++ [Ev.startVisit, Ev.startComp] } with hstI
  have hinvI : BInv g stI := by
    refine ⟨?_, ?_, ?_, ?_, ?_, ?_⟩
    · simp [hstI]
    · simp [hstI]
    · intro k hk
      have h0 : countMark stI.trace k = 0 := by
        simp [hstI, countMark, List.countP_cons]
      rw [h0, getD_replicate _ _ hk]
      simp
    · intro k hk
      have h0 : countMark stI.trace k = 0 := by
        simp [hstI, countMark, List.countP_cons]
      have h1 : countProcess stI.trace k = 0 := by
        simp [hstI, countProcess, List.countP_cons]
      rw [h0, h1]
    · intro q hqm
      have hq : q = vs0 := by simpa [hstI] using hqm
      subst hq
      refine ⟨hsrc, ?_⟩
      show ((List.replicate g.nodes.length INVALID_ID).set vs0 ROOT_ID).getD vs0 0 ≠ _
      rw [getD_set_self _ _ _ _ (by simpa using hsrc)]
      decide
    · intro k hk
      by_cases hkv : k = vs0
      · subst hkv
        refine Or.inl ⟨?_, ?_⟩
        · show ((List.replicate g.nodes.length INVALID_ID).set vs0 ROOT_ID).getD vs0 0 = _
          rw [getD_set_self _ _ _ _ (by simpa using hsrc)]
        · simp [hstI]
      · refine Or.inr (Or.inr ⟨?_, ?_, ?_⟩)
        · show ((List.replicate g.nodes.length INVALID_ID).set vs0 ROOT_ID).getD k 0 = _
          rw [getD_set_ne _ _ _ (fun h => hkv h.symm), getD_replicate _ _ hk]
        · simp [hstI, discoverers]
        · show (List.replicate g.nodes.length false).getD k false = false
          rw [getD_replicate _ _ hk]
  have hdrI : Drained g stI := by
    intro hqe
    exfalso
    simp [hstI] at hqe
  cases hL : bfsLoop g (some v) fuel stI with
  | none =>
    rw [hL] at hrun
    simp at hrun
  | some stL =>
    rw [hL] at hrun
    simp only [Option.some.injEq] at hrun
    have hout : out =
        { stL with
          vs := v.onEndVisit (v.onEndComponentVisit stL.vs)
          trace := stL.trace ++ [Ev.endComp, Ev.endVisit] } := hrun.symm
    have hnaL : NoAbort stL.trace := by
      have := hna
      rw [hout] at this
      exact (noAbort_append.mp this).1
    rcases bfsLoop_spec hwf fuel stI stL hinvI hdrI hL with ⟨hinvL, hqnil, hdrL⟩ | habort
    · intro i hi
      have hvisAll : stL.visited.getD i false = true := hdrL hqnil i hi
      have hm := hinvL.marks i hi
      rw [hvisAll] at hm
      simp at hm
      have hcounts0 : countMark [Ev.endComp, Ev.endVisit] i = 0 ∧
          countProcess [Ev.endComp, Ev.endVisit] i = 0 ∧
          discoverers [Ev.endComp, Ev.endVisit] i = [] := by
        refine ⟨?_, ?_, ?_⟩ <;> simp [countMark, countProcess, discoverers, List.countP_cons]
      refine ⟨?_, ?_, ?_⟩
      · rw [hout]
        show countMark (stL.trace ++ [Ev.endComp, Ev.endVisit]) i = 1
        rw [countMark_append, hcounts0.1, Nat.add_zero, hm]
      · rw [hout]
        show countProcess (stL.trace ++ [Ev.endComp, Ev.endVisit]) i = 1
        rw [countProcess_append, hcounts0.2.1, Nat.add_zero, hinvL.procs i hi, hm]
      · have hpb := parBranch_append_list hcounts0.2.2 (hinvL.par i hi)
        rw [hout]
        rcases hpb with h | h | h
        · exact Or.inl h
        · exact Or.inr h
        · rw [hvisAll] at h
          exact absurd h.2.2 (by simp)
    · exact absurd habort (not_hasAbort_of_noAbort hnaL)

/-! ## Helper lemmas: DFS delta specifications -/

theorem countBeginCont_le_countBegin (t : List Ev) (k : Nat) :
    countBeginCont t k ≤ countBegin t k := by
  refine List.countP_mono_left ?_
  intro e _ hp
  rw [decide_eq_true_eq] at hp
  subst hp
  simp [decide_eq_true_eq]

theorem hasAbort_append_left {Δ₁ : List Ev} (Δ₂ : List Ev) (h : HasAbort Δ₁) :
    HasAbort (Δ₁ ++ Δ₂) := by
  obtain ⟨e, he, ha⟩ := h
  exact ⟨e, List.mem_append_left _ he, ha⟩

theorem hasAbort_append_right (Δ₁ : List Ev) {Δ₂ : List Ev} (h : HasAbort Δ₂) :
    HasAbort (Δ₁ ++ Δ₂) := by
  obtain ⟨e, he, ha⟩ := h
  exact ⟨e, List.mem_append_right _ he, ha⟩

theorem deltaBalanced_append {n : Nat} {Δ₁ Δ₂ : List Ev}
    (h₁ : DeltaBalanced n Δ₁) (h₂ : DeltaBalanced n Δ₂) :
    DeltaBalanced n (Δ₁ ++ Δ₂) := by
  intro k hk
  rw [countProcess_append, countBeginCont_append, h₁ k hk, h₂ k hk]

theorem deltaBalanced_nil (n : Nat) : DeltaBalanced n [] := by
  intro k _
  rfl

theorem deltaCore_nil {n : Nat} (st : DState S) : DeltaCore n st st [] := by
  refine ⟨by simp, rfl, rfl, ?_, ?_, ?_⟩
  · intro k _ hk
    exact ⟨hk, rfl, rfl, rfl⟩
  · intro k _ hk
    exact Or.inr ⟨hk, rfl, rfl, rfl⟩
  · intro k _
    rfl

theorem deltaCore_comp {n : Nat} {st₁ st₂ st₃ : DState S} {Δ₁ Δ₂ : List Ev}
    (h₁ : DeltaCore n st₁ st₂ Δ₁) (h₂ : DeltaCore n st₂ st₃ Δ₂) :
    DeltaCore n st₁ st₃ (Δ₁ ++ Δ₂) := by
  refine ⟨?_, h₂.plen.trans h₁.plen, h₂.vlen.trans h₁.vlen, ?_, ?_, ?_⟩
  · rw [h₂.tr, h₁.tr, List.append_assoc]
  · intro k hk hv
    obtain ⟨hv2, hm1, hd1, hp1⟩ := h₁.stay k hk hv
    obtain ⟨hv3, hm2, hd2, hp2⟩ := h₂.stay k hk hv2
    refine ⟨hv3, ?_, ?_, hp2.trans hp1⟩
    · rw [countMark_append, hm1, hm2]
    · rw [discoverers_append, hd1, hd2, List.append_nil]
  · intro k hk hv
    rcases h₁.fresh k hk hv with ⟨hv2, hm1, ⟨p, hd1, hp1⟩⟩ | ⟨hv2, hm1, hd1, hp1⟩
    · obtain ⟨hv3, hm2, hd2, hp2⟩ := h₂.stay k hk hv2
      refine Or.inl ⟨hv3, ?_, ⟨p, ?_, hp2.trans hp1⟩⟩
      · rw [countMark_append, hm1, hm2]
      · rw [discoverers_append, hd1, hd2, List.append_nil]
    · rcases h₂.fresh k hk hv2 with ⟨hv3, hm2, ⟨p, hd2, hp2⟩⟩ | ⟨hv3, hm2, hd2, hp2⟩
      · refine Or.inl ⟨hv3, ?_, ⟨p, ?_, hp2⟩⟩
        · rw [countMark_append, hm1, hm2]
        · rw [discoverers_append, hd1, hd2, List.nil_append]
      · refine Or.inr ⟨hv3, ?_, ?_, hp2.trans hp1⟩
        · rw [countMark_append, hm1, hm2]
        · rw [discoverers_append, hd1, hd2, List.append_nil]
  · intro k hk
    rw [countBegin_append, countMark_append, h₁.begins k hk, h₂.begins k hk]

/-- Appending one event that records no `mark`, no parent write and no
`OnBeginNodeProcess` (and updating only the visitor state) is a valid
DFS delta. -/
theorem deltaCore_hookAppend {n : Nat} (st : DState S) (s' : S) (e : Ev)
    (hm : ∀ k, countMark [e] k = 0) (hd : ∀ k, discoverers [e] k = [])
    (hb : ∀ k, countBegin [e] k = 0) :
    DeltaCore n st { st with vs := s', trace := st.trace ++ [e] } [e] := by
  refine ⟨rfl, rfl, rfl, ?_, ?_, ?_⟩
  · intro k _ hk
    exact ⟨hk, hm k, hd k, rfl⟩
  · intro k _ hk
    exact Or.inr ⟨hk, hm k, hd k, rfl⟩
  · intro k _
    rw [hb k, hm k]

/-- The `DFSStep` children loop preserves its accumulator invariant,
provided the recursive step satisfies the delta specification. -/
theorem dfsChildFold_spec [Inhabited T] {g : Graph T} (hwf : WF g)
    (hn : 0 < g.nodes.length)
    (step : Nat → DState S → Option (DState S × Option NodeAction))
    (stC0 : DState S)
    (hstep : ∀ d (stx : DState S) st' r, d < g.nodes.length →
      stx.parents.length = g.nodes.length → stx.visited.length = g.nodes.length →
      step d stx = some (st', r) →
      ∃ Δ, DeltaCore g.nodes.length stx st' Δ ∧
        (DeltaBalanced g.nodes.length Δ ∨ HasAbort Δ) ∧
        (r = some NodeAction.Abort → HasAbort Δ))
    (hpl : stC0.parents.length = g.nodes.length)
    (hvl : stC0.visited.length = g.nodes.length) :
    ∀ (es : List Nat) (acc : Sum (DState S) (Option (DState S × Option NodeAction))),
      ChildFoldInv g.nodes.length stC0 acc →
      ChildFoldInv g.nodes.length stC0 (es.foldl (dfsChildFold g step) acc) := by
  intro es
  induction es with
  | nil => intro acc hacc; exact hacc
  | cons eIdx rest ih =>
    intro acc hacc
    apply ih
    rcases acc with stx | r
    · obtain ⟨Δc, hcore, hbal⟩ := hacc
      show ChildFoldInv g.nodes.length stC0 (dfsChildFold g step (Sum.inl stx) eIdx)
      unfold dfsChildFold
      dsimp only
      have hd : (g.edges.getD eIdx default).destination < g.nodes.length :=
        destD_lt hwf hn eIdx
      cases hs : step (g.edges.getD eIdx default).destination stx with
      | none => trivial
      | some p =>
        rcases p with ⟨st1, a⟩
        dsimp only
        obtain ⟨Δd, hcd, hbd, habd⟩ := hstep _ stx st1 a hd
          (hcore.plen.trans hpl) (hcore.vlen.trans hvl) hs
        by_cases ha : a = some NodeAction.Abort
        · rw [if_pos ha]
          exact ⟨Δc ++ Δd, deltaCore_comp hcore hcd,
            hasAbort_append_right _ (habd ha), ha⟩
        · rw [if_neg ha]
          refine ⟨Δc ++ Δd, deltaCore_comp hcore hcd, ?_⟩
          rcases hbal with hb1 | hab1
          · rcases hbd with hb2 | hab2
            · exact Or.inl (deltaBalanced_append hb1 hb2)
            · exact Or.inr (hasAbort_append_right _ hab2)
          · exact Or.inr (hasAbort_append_left _ hab1)
    · show ChildFoldInv g.nodes.length stC0 (dfsChildFold g step (Sum.inr r) eIdx)
      unfold dfsChildFold
      exact hacc

/-- The `mark`/parent-write/`OnBeginNodeProcess` entry sequence of a
`DFSStep` on an unvisited node is a valid delta. -/
theorem deltaCore_entry {n : Nat} (st : DState S) {i : Nat} (hi : i < n) (par : Int)
    (hvis : st.visited.getD i false = false)
    (hpl : st.parents.length = n) (hvl : st.visited.length = n)
    (s' : S) (a : NodeAction) :
    DeltaCore n st
      { parents := st.parents.set i par
        visited := st.visited.set i true
        vs := s'
        trace := st.trace ++ [Ev.mark i] ++ [Ev.discover par i] ++ [Ev.begin i a] }
      [Ev.mark i, Ev.discover par i, Ev.begin i a] := by
  refine ⟨by simp, by simp [hpl], by simp [hvl], ?_, ?_, ?_⟩
  · intro k hk hkv
    have hki : k ≠ i := by
      intro h
      rw [h, hvis] at hkv
      exact absurd hkv (by simp)
    have hik : i ≠ k := fun h => hki h.symm
    refine ⟨?_, ?_, ?_, ?_⟩
    · show (st.visited.set i true).getD k false = true
      rw [getD_set_ne _ _ _ hik]
      exact hkv
    · simp [countMark, List.countP_cons, hik]
    · simp [discoverers, hik]
    · show (st.parents.set i par).getD k 0 = st.parents.getD k 0
      rw [getD_set_ne _ _ _ hik]
  · intro k hk hkv
    by_cases hki : k = i
    · subst hki
      refine Or.inl ⟨?_, ?_, ⟨par, ?_, ?_⟩⟩
      · show (st.visited.set k true).getD k false = true
        rw [getD_set_self _ _ _ _ (by rw [hvl]; exact hk)]
      · simp [countMark, List.countP_cons]
      · simp [discoverers]
      · show (st.parents.set k par).getD k 0 = par
        rw [getD_set_self _ _ _ _ (by rw [hpl]; exact hk)]
    · have hik : i ≠ k := fun h => hki h.symm
      refine Or.inr ⟨?_, ?_, ?_, ?_⟩
      · show (st.visited.set i true).getD k false = false
        rw [getD_set_ne _ _ _ hik]
        exact hkv
      · simp [countMark, List.countP_cons, hik]
      · simp [discoverers, hik]
      · show (st.parents.set i par).getD k 0 = st.parents.getD k 0
        rw [getD_set_ne _ _ _ hik]
  · intro k hk
    by_cases hki : k = i
    · subst hki
      simp [countBegin, countMark, List.countP_cons]
    · have hik : i ≠ k := fun h => hki h.symm
      simp [countBegin, countMark, List.countP_cons, hik]

/-- The delta specification of a completed `DFSStep` call (visitor
attached): it appends a trace segment satisfying `DeltaCore`, balanced
unless some hook returned `Abort`, and a returned `Abort` is always
recorded on the segment. -/
theorem dfsStep_delta [Inhabited T] {g : Graph T} (v : Visitor T S) (order : DFSOrder)
    (hwf : WF g) :
    ∀ (fuel : Nat) (i : Nat) (par : Int) (st : DState S),
      i < g.nodes.length →
      st.parents.length = g.nodes.length → st.visited.length = g.nodes.length →
      (match dfsStep g (some v) order fuel i par st with
        | none => True
        | some (st', r) =>
          ∃ Δ, DeltaCore g.nodes.length st st' Δ ∧
            (DeltaBalanced g.nodes.length Δ ∨ HasAbort Δ) ∧
            (r = some NodeAction.Abort → HasAbort Δ)) := by
  intro fuel
  induction fuel with
  | zero =>
    intro i par st _ _ _
    rw [dfsStep]
    trivial
  | succ f ihf =>
    intro i par st hi hpl hvl
    have hn : 0 < g.nodes.length := Nat.lt_of_le_of_lt (Nat.zero_le _) hi
    have hid : g.nodeIdAt i = i := nodeIdAt_eq hwf hi
    rw [dfsStep, hid]
    cases hv : st.visited.getD i false with
    | true =>
      rw [if_pos rfl]
      dsimp only
      rcases ha : v.onNodeAlreadyVisited st.vs (hookNode g st.parents i) with ⟨s1, a1⟩
      simp only [runDHook, ha]
      refine ⟨[Ev.already i a1], ?_, ?_, ?_⟩
      · exact deltaCore_hookAppend st s1 (Ev.already i a1)
          (fun k => by simp [countMark, List.countP_cons])
          (fun k => by simp [discoverers])
          (fun k => by simp [countBegin, List.countP_cons])
      · refine Or.inl ?_
        intro k _
        simp [countProcess, countBeginCont, List.countP_cons]
      · intro hr
        simp only [Option.some.injEq] at hr
        subst hr
        exact ⟨Ev.already i NodeAction.Abort, by simp, rfl⟩
    | false =>
      rw [if_neg (by simp)]
      dsimp only
      simp only [runDHook]
      rcases hb : v.onBeginNodeProcess st.vs (hookNode g (st.parents.set i par) i)
        with ⟨s1, a1⟩
      dsimp only
      cases a1 with
      | Abort =>
        rw [if_pos (by decide)]
        dsimp only
        refine ⟨[Ev.mark i, Ev.discover par i, Ev.begin i NodeAction.Abort],
          deltaCore_entry st hi par hv hpl hvl s1 NodeAction.Abort, ?_, ?_⟩
        · exact Or.inr ⟨Ev.begin i NodeAction.Abort, by simp, rfl⟩
        · exact fun _ => ⟨Ev.begin i NodeAction.Abort, by simp, rfl⟩
      | SkipChildren =>
        rw [if_pos (by decide)]
        dsimp only
        refine ⟨[Ev.mark i, Ev.discover par i, Ev.begin i NodeAction.SkipChildren],
          deltaCore_entry st hi par hv hpl hvl s1 NodeAction.SkipChildren, ?_, ?_⟩
        · refine Or.inl ?_
          intro k _
          simp [countProcess, countBeginCont, List.countP_cons]
        · intro hr
          simp at hr
      | Continue =>
        rw [if_neg (by decide)]
        dsimp only
        have hcore1 : DeltaCore g.nodes.length st
            { parents := st.parents.set i par
              visited := st.visited.set i true
              vs := s1
              trace := st.trace ++ [Ev.mark i] ++ [Ev.discover par i]
                ++ [Ev.begin i NodeAction.Continue] }
            [Ev.mark i, Ev.discover par i, Ev.begin i NodeAction.Continue] :=
          deltaCore_entry st hi par hv hpl hvl s1 NodeAction.Continue
        cases order with
        | PreOrder =>
          dsimp only
          rcases hp : v.onNodeProcess s1 (hookNode g (st.parents.set i par) i)
            with ⟨s2, a2⟩
          dsimp only
          cases a2 with
          | Abort =>
            rw [if_pos (by decide)]
            dsimp only
            refine ⟨[Ev.mark i, Ev.discover par i, Ev.begin i NodeAction.Continue]
              ++ [Ev.process i NodeAction.Abort],
              deltaCore_comp hcore1
                (deltaCore_hookAppend _ s2 (Ev.process i NodeAction.Abort)
                  (fun k => by simp [countMark, List.countP_cons])
                  (fun k => by simp [discoverers])
                  (fun k => by simp [countBegin, List.countP_cons])), ?_, ?_⟩
            · exact Or.inr ⟨Ev.process i NodeAction.Abort, by simp, rfl⟩
            · exact fun _ => ⟨Ev.process i NodeAction.Abort, by simp, rfl⟩
          | SkipChildren =>
            rw [if_pos (by decide)]
            dsimp only
            refine ⟨[Ev.mark i, Ev.discover par i, Ev.begin i NodeAction.Continue]
              ++ [Ev.process i NodeAction.SkipChildren],
              deltaCore_comp hcore1
                (deltaCore_hookAppend _ s2 (Ev.process i NodeAction.SkipChildren)
                  (fun k => by simp [countMark, List.countP_cons])
                  (fun k => by simp [discoverers])
                  (fun k => by simp [countBegin, List.countP_cons])), ?_, ?_⟩
            · refine Or.inl ?_
              intro k _
              rw [countProcess_append, countBeginCont_append]
              by_cases hik : i = k <;>
                simp [countProcess, countBeginCont, List.countP_cons, hik]
            · intro hr
              simp at hr
          | Continue =>
            rw [if_neg (by decide)]
            dsimp only
            have hcore0 : DeltaCore g.nodes.length st
                { parents := st.parents.set i par
                  visited := st.visited.set i true
                  vs := s2
                  trace := st.trace ++ [Ev.mark i] ++ [Ev.discover par i]
                    ++ [Ev.begin i NodeAction.Continue]
                    ++ [Ev.process i NodeAction.Continue] }
                ([Ev.mark i, Ev.discover par i, Ev.begin i NodeAction.Continue]
                  ++ [Ev.process i NodeAction.Continue]) :=
              deltaCore_comp hcore1
                (deltaCore_hookAppend _ s2 (Ev.process i NodeAction.Continue)
                  (fun k => by simp [countMark, List.countP_cons])
                  (fun k => by simp [discoverers])
                  (fun k => by simp [countBegin, List.countP_cons]))
            set stC0 : DState S :=
              { parents := st.parents.set i par
                visited := st.visited.set i true
                vs := s2
                trace := st.trace ++ [Ev.mark i] ++ [Ev.discover par i]
                  ++ [Ev.begin i NodeAction.Continue]
                  ++ [Ev.process i NodeAction.Continue] } with hstC0
            have hplC : stC0.parents.length = g.nodes.length := by
              rw [hstC0]; simpa using hpl
            have hvlC : stC0.visited.length = g.nodes.length := by
              rw [hstC0]; simpa using hvl
            have hstep : ∀ d (stx : DState S) st' r, d < g.nodes.length →
                stx.parents.length = g.nodes.length →
                stx.visited.length = g.nodes.length →
                dfsStep g (some v) DFSOrder.PreOrder f d ((i : Int)) stx = some (st', r) →
                ∃ Δ, DeltaCore g.nodes.length stx st' Δ ∧
                  (DeltaBalanced g.nodes.length Δ ∨ HasAbort Δ) ∧
                  (r = some NodeAction.Abort → HasAbort Δ) := by
              intro d stx st' r hd hplx hvlx hs
              have hh := ihf d ((i : Int)) stx hd hplx hvlx
              rw [hs] at hh
              exact hh
            have hcinv := dfsChildFold_spec hwf hn
              (fun d stc => dfsStep g (some v) DFSOrder.PreOrder f d ((i : Int)) stc)
              stC0 hstep hplC hvlC (g.nodeRec i).edges (Sum.inl stC0)
              ⟨[], deltaCore_nil stC0, Or.inl (deltaBalanced_nil _)⟩
            cases hcres : List.foldl
                (dfsChildFold g
                  (fun d stc => dfsStep g (some v) DFSOrder.PreOrder f d ((i : Int)) stc))
                (Sum.inl stC0) (g.nodeRec i).edges with
            | inr r' =>
              rw [hcres] at hcinv
              cases r' with
              | none => trivial
              | some p =>
                rcases p with ⟨stx, aa⟩
                dsimp only
                obtain ⟨Δc, hcC, habC, _⟩ := hcinv
                refine ⟨_ ++ Δc, deltaCore_comp hcore0 hcC,
                  Or.inr (hasAbort_append_right _ habC),
                  fun _ => hasAbort_append_right _ habC⟩
            | inl stx =>
              rw [hcres] at hcinv
              obtain ⟨Δc, hcC, hbalC⟩ := hcinv
              dsimp only
              rw [if_neg (by decide)]
              dsimp only
              rcases he : v.onEndNodeProcess stx.vs (hookNode g stx.parents i)
                with ⟨s6, a6⟩
              dsimp only
              have hcoreE : ∀ (a : NodeAction), DeltaCore g.nodes.length st
                  { stx with vs := s6, trace := stx.trace ++ [Ev.endNode i a] }
                  (([Ev.mark i, Ev.discover par i, Ev.begin i NodeAction.Continue]
                    ++ [Ev.process i NodeAction.Continue]) ++ Δc ++ [Ev.endNode i a]) :=
                fun a => deltaCore_comp (deltaCore_comp hcore0 hcC)
                  (deltaCore_hookAppend stx s6 (Ev.endNode i a)
                    (fun k => by simp [countMark, List.countP_cons])
                    (fun k => by simp [discoverers])
                    (fun k => by simp [countBegin, List.countP_cons]))
              by_cases ha6 : a6 = NodeAction.Abort
              · rw [if_pos ha6]
                subst ha6
                dsimp only
                refine ⟨_, hcoreE NodeAction.Abort, ?_, ?_⟩
                · exact Or.inr (hasAbort_append_right _ ⟨Ev.endNode i NodeAction.Abort,
                    by simp, rfl⟩)
                · exact fun _ => hasAbort_append_right _ ⟨Ev.endNode i NodeAction.Abort,
                    by simp, rfl⟩
              · rw [if_neg ha6]
                dsimp only
                refine ⟨_, hcoreE a6, ?_, ?_⟩
                · rcases hbalC with hbc | hab
                  · refine Or.inl ?_
                    intro k hk
                    rw [countProcess_append, countBeginCont_append,
                      countProcess_append, countBeginCont_append, hbc k hk]
                    have h1 : countProcess [Ev.endNode i a6] k = 0 := by
                      simp [countProcess, List.countP_cons]
                    have h2 : countBeginCont [Ev.endNode i a6] k = 0 := by
                      simp [countBeginCont, List.countP_cons]
                    have h3 : countProcess
                        ([Ev.mark i, Ev.discover par i, Ev.begin i NodeAction.Continue]
                          ++ [Ev.process i NodeAction.Continue]) k =
                        countBeginCont
                        ([Ev.mark i, Ev.discover par i, Ev.begin i NodeAction.Continue]
                          ++ [Ev.process i NodeAction.Continue]) k := by
                      rw [countProcess_append, countBeginCont_append]
                      by_cases hik : i = k <;>
                        simp [countProcess, countBeginCont, List.countP_cons, hik]
                    rw [h1, h2, h3]
                  · exact Or.inr (hasAbort_append_left _ (hasAbort_append_right _ hab))
                · intro hr
                  simp at hr
        | PostOrder =>
          dsimp only
          set stC0 : DState S :=
            { parents := st.parents.set i par
              visited := st.visited.set i true
              vs := s1
              trace := st.trace ++ [Ev.mark i] ++ [Ev.discover par i]
                ++ [Ev.begin i NodeAction.Continue] } with hstC0
          have hplC : stC0.parents.length = g.nodes.length := by
            rw [hstC0]; simpa using hpl
          have hvlC : stC0.visited.length = g.nodes.length := by
            rw [hstC0]; simpa using hvl
          have hstep : ∀ d (stx : DState S) st' r, d < g.nodes.length →
              stx.parents.length = g.nodes.length →
              stx.visited.length = g.nodes.length →
              dfsStep g (some v) DFSOrder.PostOrder f d ((i : Int)) stx = some (st', r) →
              ∃ Δ, DeltaCore g.nodes.length stx st' Δ ∧
                (DeltaBalanced g.nodes.length Δ ∨ HasAbort Δ) ∧
                (r = some NodeAction.Abort → HasAbort Δ) := by
            intro d stx st' r hd hplx hvlx hs
            have hh := ihf d ((i : Int)) stx hd hplx hvlx
            rw [hs] at hh
            exact hh
          have hcinv := dfsChildFold_spec hwf hn
            (fun d stc => dfsStep g (some v) DFSOrder.PostOrder f d ((i : Int)) stc)
            stC0 hstep hplC hvlC (g.nodeRec i).edges (Sum.inl stC0)
            ⟨[], deltaCore_nil stC0, Or.inl (deltaBalanced_nil _)⟩
          cases hcres : List.foldl
              (dfsChildFold g
                (fun d stc => dfsStep g (some v) DFSOrder.PostOrder f d ((i : Int)) stc))
              (Sum.inl stC0) (g.nodeRec i).edges with
          | inr r' =>
            rw [hcres] at hcinv
            cases r' with
            | none => trivial
            | some p =>
              rcases p with ⟨stx, aa⟩
              dsimp only
              obtain ⟨Δc, hcC, habC, _⟩ := hcinv
              refine ⟨_ ++ Δc, deltaCore_comp hcore1 hcC,
                Or.inr (hasAbort_append_right _ habC),
                fun _ => hasAbort_append_right _ habC⟩
          | inl stx =>
            rw [hcres] at hcinv
            obtain ⟨Δc, hcC, hbalC⟩ := hcinv
            dsimp only
            rw [if_pos rfl]
            rcases hpp : v.onNodeProcess stx.vs (hookNode g stx.parents i)
              with ⟨s5, a5⟩
            dsimp only
            by_cases ha5 : a5 = NodeAction.Abort
            · rw [if_pos ha5]
              subst ha5
              dsimp only
              refine ⟨([Ev.mark i, Ev.discover par i, Ev.begin i NodeAction.Continue]
                  ++ Δc) ++ [Ev.process i NodeAction.Abort],
                deltaCore_comp (deltaCore_comp hcore1 hcC)
                  (deltaCore_hookAppend stx s5 (Ev.process i NodeAction.Abort)
                    (fun k => by simp [countMark, List.countP_cons])
                    (fun k => by simp [discoverers])
                    (fun k => by simp [countBegin, List.countP_cons])), ?_, ?_⟩
              · exact Or.inr (hasAbort_append_right _ ⟨Ev.process i NodeAction.Abort,
                  by simp, rfl⟩)
              · exact fun _ => hasAbort_append_right _ ⟨Ev.process i NodeAction.Abort,
                  by simp, rfl⟩
            · rw [if_neg ha5]
              dsimp only
              rcases he : v.onEndNodeProcess s5 (hookNode g stx.parents i)
                with ⟨s6, a6⟩
              dsimp only
              have hcoreE : ∀ (a : NodeAction), DeltaCore g.nodes.length st
                  { stx with
                    vs := s6
                    trace := stx.trace ++ [Ev.process i a5] ++ [Ev.endNode i a] }
                  ((([Ev.mark i, Ev.discover par i, Ev.begin i NodeAction.Continue]
                    ++ Δc) ++ [Ev.process i a5]) ++ [Ev.endNode i a]) :=
                fun a => deltaCore_comp
                  (deltaCore_comp (deltaCore_comp hcore1 hcC)
                    (deltaCore_hookAppend stx s5 (Ev.process i a5)
                      (fun k => by simp [countMark, List.countP_cons])
                      (fun k => by simp [discoverers])
                      (fun k => by simp [countBegin, List.countP_cons])))
                  (deltaCore_hookAppend _ s6 (Ev.endNode i a)
                    (fun k => by simp [countMark, List.countP_cons])
                    (fun k => by simp [discoverers])
                    (fun k => by simp [countBegin, List.countP_cons]))
              by_cases ha6 : a6 = NodeAction.Abort
              · rw [if_pos ha6]
                subst ha6
                dsimp only
                refine ⟨_, hcoreE NodeAction.Abort, ?_, ?_⟩
                · exact Or.inr (hasAbort_append_right _ ⟨Ev.endNode i NodeAction.Abort,
                    by simp, rfl⟩)
                · exact fun _ => hasAbort_append_right _ ⟨Ev.endNode i NodeAction.Abort,
                    by simp, rfl⟩
              · rw [if_neg ha6]
                dsimp only
                refine ⟨_, hcoreE a6, ?_, ?_⟩
                · rcases hbalC with hbc | hab
                  · refine Or.inl ?_
                    intro k hk
                    rw [countProcess_append, countBeginCont_append,
                      countProcess_append, countBeginCont_append,
                      countProcess_append, countBeginCont_append, hbc k hk]
                    have h0p : countProcess
                        [Ev.mark i, Ev.discover par i, Ev.begin i NodeAction.Continue] k
                        = 0 := by
                      simp [countProcess, List.countP_cons]
                    have h0b : countBeginCont
                        [Ev.mark i, Ev.discover par i, Ev.begin i NodeAction.Continue] k
                        = (if i = k then 1 else 0) := by
                      by_cases hik : i = k <;>
                        simp [countBeginCont, List.countP_cons, hik]
                    have h5p : countProcess [Ev.process i a5] k =
                        (if i = k then 1 else 0) := by
                      by_cases hik : i = k <;> simp [countProcess, List.countP_cons, hik]
                    have h5b : countBeginCont [Ev.process i a5] k = 0 := by
                      simp [countBeginCont, List.countP_cons]
                    have h6p : countProcess [Ev.endNode i a6] k = 0 := by
                      simp [countProcess, List.countP_cons]
                    have h6b : countBeginCont [Ev.endNode i a6] k = 0 := by
                      simp [countBeginCont, List.countP_cons]
                    rw [h0p, h0b, h5p, h5b, h6p, h6b]
                    omega
                  · exact Or.inr (hasAbort_append_left _ (hasAbort_append_left _
                      (hasAbort_append_right _ hab)))
                · intro hr
                  simp at hr

/-- The DFS driver scan: it appends a valid delta, and when it reports
`allNodesVisited` it either verified every scanned node visited or broke
out on a recorded `Abort`. -/
theorem dfsFor_spec [Inhabited T] {g : Graph T} (v : Visitor T S) (order : DFSOrder)
    (stepFuel : Nat) (hwf : WF g) :
    ∀ (l : List Nat) (st : DState S) (allV : Bool) (st'' : DState S) (res : Bool),
      (∀ k ∈ l, k < g.nodes.length) →
      st.parents.length = g.nodes.length → st.visited.length = g.nodes.length →
      dfsFor g v order stepFuel l st allV = some (st'', res) →
      ∃ Δ, DeltaCore g.nodes.length st st'' Δ ∧
        (DeltaBalanced g.nodes.length Δ ∨ HasAbort Δ) ∧
        (res = true →
          (allV = true ∧ ∀ k ∈ l, st''.visited.getD k false = true) ∨ HasAbort Δ) := by
  intro l
  induction l with
  | nil =>
    intro st allV st'' res _ _ _ hrun
    rw [dfsFor] at hrun
    simp only [Option.some.injEq, Prod.mk.injEq] at hrun
    obtain ⟨h1, h2⟩ := hrun
    subst h1
    subst h2
    exact ⟨[], deltaCore_nil st, Or.inl (deltaBalanced_nil _),
      fun hr => Or.inl ⟨hr, by simp⟩⟩
  | cons i rest ih =>
    intro st allV st'' res hl hpl hvl hrun
    have hi : i < g.nodes.length := hl i (List.mem_cons_self _ _)
    have hrest : ∀ k ∈ rest, k < g.nodes.length :=
      fun k hk => hl k (List.mem_cons_of_mem _ hk)
    rw [dfsFor] at hrun
    by_cases hvis : st.visited.getD i false = true
    · rw [if_pos hvis] at hrun
      obtain ⟨Δ, hcore, hbal, hres⟩ := ih st allV st'' res hrest hpl hvl hrun
      refine ⟨Δ, hcore, hbal, ?_⟩
      intro hr
      rcases hres hr with ⟨ha, hall⟩ | hab
      · refine Or.inl ⟨ha, ?_⟩
        intro k hk
        rcases List.mem_cons.mp hk with hk1 | hk2
        · subst hk1
          exact (hcore.stay k hi hvis).1
        · exact hall k hk2
      · exact Or.inr hab
    · rw [if_neg hvis] at hrun
      have hvisF : st.visited.getD i false = false := by
        cases hx : st.visited.getD i false
        · rfl
        · exact absurd hx hvis
      cases hs : dfsStep g (some v) order stepFuel i ((i : Int)) st with
      | none => rw [hs] at hrun; simp at hrun
      | some p =>
        rcases p with ⟨st1, a⟩
        rw [hs] at hrun
        dsimp only at hrun
        have hd := dfsStep_delta v order hwf stepFuel i ((i : Int)) st hi hpl hvl
        rw [hs] at hd
        obtain ⟨Δ1, hc1, hb1, hab1⟩ := hd
        by_cases ha : a = some NodeAction.Abort
        · rw [if_pos ha] at hrun
          simp only [Option.some.injEq, Prod.mk.injEq] at hrun
          obtain ⟨h1, h2⟩ := hrun
          subst h1
          refine ⟨Δ1, hc1, hb1, fun _ => Or.inr (hab1 ha)⟩
        · rw [if_neg ha] at hrun
          obtain ⟨Δ2, hc2, hb2, hres2⟩ := ih st1 false st'' res hrest
            (hc1.plen.trans hpl) (hc1.vlen.trans hvl) hrun
          refine ⟨Δ1 ++ Δ2, deltaCore_comp hc1 hc2, ?_, ?_⟩
          · rcases hb1 with h | h
            · rcases hb2 with h2 | h2
              · exact Or.inl (deltaBalanced_append h h2)
              · exact Or.inr (hasAbort_append_right _ h2)
            · exact Or.inr (hasAbort_append_left _ h)
          · intro hr
            rcases hres2 hr with ⟨hfe, _⟩ | hab
            · exact absurd hfe (by simp)
            · exact Or.inr (hasAbort_append_right _ hab)

/-- The DFS outer component loop: a completed run appends a valid delta
and ends with every node visited, unless some hook returned `Abort`. -/
theorem dfsWhile_spec [Inhabited T] {g : Graph T} (v : Visitor T S) (order : DFSOrder)
    (stepFuel : Nat) {visitSource : Nat} (hwf : WF g)
    (hvs : visitSource < g.nodes.length) :
    ∀ (loopFuel : Nat) (st st'' : DState S),
      st.parents.length = g.nodes.length → st.visited.length = g.nodes.length →
      dfsWhile g v order stepFuel visitSource loopFuel st = some st'' →
      ∃ Δ, DeltaCore g.nodes.length st st'' Δ ∧
        (DeltaBalanced g.nodes.length Δ ∨ HasAbort Δ) ∧
        ((∀ k, k < g.nodes.length → st''.visited.getD k false = true) ∨ HasAbort Δ) := by
  intro loopFuel
  induction loopFuel with
  | zero =>
    intro st st'' _ _ h
    simp [dfsWhile] at h
  | succ f ih =>
    intro st st'' hpl hvl hrun
    rw [dfsWhile] at hrun
    dsimp only at hrun
    have hcoreS : DeltaCore g.nodes.length st
        { st with vs := v.onStartComponentVisit st.vs, trace := st.trace ++ [Ev.startComp] }
        [Ev.startComp] :=
      deltaCore_hookAppend st _ Ev.startComp
        (fun k => by simp [countMark, List.countP_cons])
        (fun k => by simp [discoverers])
        (fun k => by simp [countBegin, List.countP_cons])
    set stS : DState S :=
      { st with vs := v.onStartComponentVisit st.vs, trace := st.trace ++ [Ev.startComp] }
      with hstS
    have hplS : stS.parents.length = g.nodes.length := by rw [hstS]; exact hpl
    have hvlS : stS.visited.length = g.nodes.length := by rw [hstS]; exact hvl
    have hmain : ∀ (stA : DState S) (ΔA : List Ev),
        DeltaCore g.nodes.length st stA ΔA →
        (DeltaBalanced g.nodes.length ΔA ∨ HasAbort ΔA) →
        (match dfsFor g v order stepFuel (List.range g.nodes.length) stA true with
          | none => none
          | some (stF, allV) =>
            (if allV then
              some { stF with vs := v.onEndComponentVisit stF.vs,
                              trace := stF.trace ++ [Ev.endComp] }
            else
              dfsWhile g v order stepFuel visitSource f
                { stF with vs := v.onEndComponentVisit stF.vs,
                           trace := stF.trace ++ [Ev.endComp] })) = some st'' →
        ∃ Δ, DeltaCore g.nodes.length st st'' Δ ∧
          (DeltaBalanced g.nodes.length Δ ∨ HasAbort Δ) ∧
          ((∀ k, k < g.nodes.length → st''.visited.getD k false = true) ∨ HasAbort Δ) := by
      intro stA ΔA hcA hbA hrunA
      cases hF : dfsFor g v order stepFuel (List.range g.nodes.length) stA true with
      | none => rw [hF] at hrunA; simp at hrunA
      | some p =>
        rcases p with ⟨stF, allV⟩
        rw [hF] at hrunA
        dsimp only at hrunA
        obtain ⟨ΔF, hcF, hbF, hresF⟩ := dfsFor_spec v order stepFuel hwf
          (List.range g.nodes.length) stA true stF allV
          (fun k hk => List.mem_range.mp hk)
          (hcA.plen.trans hpl) (hcA.vlen.trans hvl) hF
        have hcoreE : DeltaCore g.nodes.length st
            { stF with vs := v.onEndComponentVisit stF.vs,
                       trace := stF.trace ++ [Ev.endComp] }
            ((ΔA ++ ΔF) ++ [Ev.endComp]) :=
          deltaCore_comp (deltaCore_comp hcA hcF)
            (deltaCore_hookAppend stF _ Ev.endComp
              (fun k => by simp [countMark, List.countP_cons])
              (fun k => by simp [discoverers])
              (fun k => by simp [countBegin, List.countP_cons]))
        have hbE : DeltaBalanced g.nodes.length ((ΔA ++ ΔF) ++ [Ev.endComp]) ∨
            HasAbort ((ΔA ++ ΔF) ++ [Ev.endComp]) := by
          rcases hbA with h1 | h1
          · rcases hbF with h2 | h2
            · refine Or.inl ?_
              refine deltaBalanced_append (deltaBalanced_append h1 h2) ?_
              intro k _
              simp [countProcess, countBeginCont, List.countP_cons]
            · exact Or.inr (hasAbort_append_left _ (hasAbort_append_right _ h2))
          · exact Or.inr (hasAbort_append_left _ (hasAbort_append_left _ h1))
        cases allV with
        | true =>
          rw [if_pos rfl] at hrunA
          simp only [Option.some.injEq] at hrunA
          subst hrunA
          refine ⟨(ΔA ++ ΔF) ++ [Ev.endComp], hcoreE, hbE, ?_⟩
          rcases hresF rfl with ⟨_, hall⟩ | hab
          · refine Or.inl ?_
            intro k hk
            show stF.visited.getD k false = true
            exact hall k (List.mem_range.mpr hk)
          · exact Or.inr (hasAbort_append_left _ (hasAbort_append_right _ hab))
        | false =>
          rw [if_neg (by simp)] at hrunA
          obtain ⟨ΔR, hcR, hbR, hallR⟩ := ih _ st''
            (hcoreE.plen.trans hpl) (hcoreE.vlen.trans hvl) hrunA
          refine ⟨((ΔA ++ ΔF) ++ [Ev.endComp]) ++ ΔR, deltaCore_comp hcoreE hcR, ?_, ?_⟩
          · rcases hbE with h1 | h1
            · rcases hbR with h2 | h2
              · exact Or.inl (deltaBalanced_append h1 h2)
              · exact Or.inr (hasAbort_append_right _ h2)
            · exact Or.inr (hasAbort_append_left _ h1)
          · rcases hallR with h | h
            · exact Or.inl h
            · exact Or.inr (hasAbort_append_right _ h)
    by_cases hvis0 : stS.visited.getD visitSource false = true
    · rw [if_pos hvis0] at hrun
      exact hmain stS [Ev.startComp] hcoreS
        (Or.inl (by intro k _; simp [countProcess, countBeginCont, List.countP_cons])) hrun
    · rw [if_neg hvis0] at hrun
      cases hs : dfsStep g (some v) order stepFuel visitSource ((visitSource : Int)) stS with
      | none => rw [hs] at hrun; simp at hrun
      | some p =>
        rcases p with ⟨st2, a2⟩
        rw [hs] at hrun
        dsimp only at hrun
        have hd := dfsStep_delta v order hwf stepFuel visitSource ((visitSource : Int)) stS
          hvs hplS hvlS
        rw [hs] at hd
        obtain ⟨Δ2, hc2, hb2, _⟩ := hd
        refine hmain st2 ([Ev.startComp] ++ Δ2) (deltaCore_comp hcoreS hc2) ?_ hrun
        rcases hb2 with h | h
        · refine Or.inl (deltaBalanced_append ?_ h)
          intro k _
          simp [countProcess, countBeginCont, List.countP_cons]
        · exact Or.inr (hasAbort_append_right _ h)

/-- A completed, visitor-attached, never-aborted `Graph::DFS` run over a
well-formed graph: every node is marked visited exactly once, receives
exactly one `OnBeginNodeProcess` call, has `OnNodeProcess` fired exactly
once per `Continue` answer from `OnBeginNodeProcess`, and gets its
`parent` field written exactly once, to the final stored value. -/
theorem dfs_final [Inhabited T] {g : Graph T} (v : Visitor T S) (s0 : S)
    (order : DFSOrder) (stepFuel loopFuel : Nat) (out : DState S) (hwf : WF g)
    (hvs : (if v.visitSource < 0 then 0 else v.visitSource.toNat) < g.nodes.length)
    (hrun : dfs g (some v) s0 order stepFuel loopFuel = some (DfsOut.ok out))
    (hna : NoAbort out.trace) :
    ∀ i, i < g.nodes.length →
      countMark out.trace i = 1 ∧ countBegin out.trace i = 1 ∧
      countProcess out.trace i = countBeginCont out.trace i ∧
      ∃ p, out.parents.getD i 0 = p ∧ discoverers out.trace i = [p] := by
  have hn0 : ¬ g.nodes.length = 0 := by
    intro h
    rw [h] at hvs
    exact Nat.not_lt_zero _ hvs
  unfold dfs at hrun
  dsimp only at hrun
  rw [if_neg hn0] at hrun
  cases hW : dfsWhile g v order stepFuel
      (if v.visitSource < 0 then 0 else v.visitSource.toNat) loopFuel
      { parents := List.replicate g.nodes.length INVALID_ID,
        visited := List.replicate g.nodes.length false,
        vs := v.onStartVisit s0,
        trace := [] ++ [Ev.startVisit] } with
  | none => rw [hW] at hrun; simp at hrun
  | some stW =>
    rw [hW] at hrun
    simp only [Option.some.injEq, DfsOut.ok.injEq] at hrun
    obtain ⟨Δ, hcore, hbal, hall⟩ := dfsWhile_spec v order stepFuel hwf hvs loopFuel
      _ stW (by simp) (by simp) hW
    have htr : out.trace = [Ev.startVisit] ++ Δ ++ [Ev.endVisit] := by
      rw [← hrun]
      dsimp only
      rw [hcore.tr]
      rfl
    have hnaΔ : NoAbort Δ := by
      rw [htr] at hna
      exact (noAbort_append.mp (noAbort_append.mp hna).1).2
    have hnoab : ¬ HasAbort Δ := not_hasAbort_of_noAbort hnaΔ
    have hbal' : DeltaBalanced g.nodes.length Δ := hbal.resolve_right hnoab
    have hall' : ∀ k, k < g.nodes.length → stW.visited.getD k false = true :=
      hall.resolve_right hnoab
    intro i hi
    have hfresh0 : (List.replicate g.nodes.length false).getD i false = false :=
      getD_replicate _ _ hi
    have hpar : out.parents = stW.parents := by
      rw [← hrun]
    rcases hcore.fresh i hi hfresh0 with
      ⟨_, hm, p, hd, hp⟩ | ⟨hvF, _, _, _⟩
    · have hb := hcore.begins i hi
      have hmS : countMark [Ev.startVisit] i = 0 := by simp [countMark]
      have hmE : countMark [Ev.endVisit] i = 0 := by simp [countMark]
      have hbS : countBegin [Ev.startVisit] i = 0 := by simp [countBegin]
      have hbE : countBegin [Ev.endVisit] i = 0 := by simp [countBegin]
      have hpS : countProcess [Ev.startVisit] i = 0 := by simp [countProcess]
      have hpE : countProcess [Ev.endVisit] i = 0 := by simp [countProcess]
      have hcS : countBeginCont [Ev.startVisit] i = 0 := by simp [countBeginCont]
      have hcE : countBeginCont [Ev.endVisit] i = 0 := by simp [countBeginCont]
      have hdS : discoverers [Ev.startVisit] i = [] := by simp [discoverers]
      have hdE : discoverers [Ev.endVisit] i = [] := by simp [discoverers]
      refine ⟨?_, ?_, ?_, p, ?_, ?_⟩
      · rw [htr, countMark_append, countMark_append, hmS, hmE, hm]
      · rw [htr, countBegin_append, countBegin_append, hbS, hbE, hb, hm]
      · rw [htr, countProcess_append, countProcess_append, hpS, hpE,
          countBeginCont_append, countBeginCont_append, hcS, hcE, hbal' i hi]
      · rw [hpar, hp]
      · rw [htr, discoverers_append, discoverers_append, hdS, hdE, hd,
          List.nil_append, List.append_nil]
    · exact absurd (hall' i hi) (by rw [hvF]; simp)

/-! ## Claim theorems on concrete runs -/

/-- C2: fails on the code.  `AddListEdge` guards the reciprocal record
with `if(directed)` instead of `if(!directed)`: adding `(0,1)` with
`directed = false` creates exactly ONE record, referenced once from node
0's edge list and never from node 1's, while `directed = true` creates
TWO reciprocal records — the exact opposite of the claim. -/
theorem c2_addListEdge_reciprocal_inverted :
    ((listGraph 2).addListEdge 0 1 5 false).edges =
      [{ source := 0, destination := 1, weight := 5, directed := false }] ∧
    ((listGraph 2).addListEdge 0 1 5 false).nodes.map (fun nd => nd.edges) = [[0], []] ∧
    ((listGraph 2).addListEdge 0 1 5 true).edges =
      [{ source := 0, destination := 1, weight := 5, directed := true },
       { source := 1, destination := 0, weight := 5, directed := true }] ∧
    ((listGraph 2).addListEdge 0 1 5 true).nodes.map (fun nd => nd.edges) = [[0], [1]] :=
  ⟨rfl, rfl, rfl, rfl⟩

/-- C3: fails on the code.  On the 2-component graph of two isolated
nodes, BFS fires `OnStartComponentVisit` twice but `OnEndComponentVisit`
three times (`BFSAddNextComponentNode` fires an end before scanning, and
the trailing bracket fires another), so the pairs are not matched; on the
3-component graph of three isolated nodes, DFS fires only two
start/end pairs, because one pass of the driver's scan walks every
remaining component inside a single `OnStartComponentVisit` /
`OnEndComponentVisit` bracket. -/
theorem c3_component_hooks_not_paired :
    (listGraph 2).nodes.length = 2 ∧
    (bfs (listGraph 2) (some (trivialVisitor Int Unit)) () 30).map
        (fun st => (countStartComp st.trace, countEndComp st.trace)) = some (2, 3) ∧
    (listGraph 3).nodes.length = 3 ∧
    (dfsTrace (dfs (listGraph 3) (some (trivialVisitor Int Unit)) ()
          DFSOrder.PreOrder 20 20)).map
        (fun t => (countStartComp t, countEndComp t)) = some (2, 2) :=
  ⟨rfl, rfl, rfl, rfl⟩

/-- C4: fails on the code.  The DFS driver discards the `NodeAction`
returned by the `DFSStep` it runs on the visit source (line 660), so an
`Abort` from a hook there does not stop the traversal: on two isolated
nodes with a visitor whose `OnNodeProcess` returns `Abort`, node 1 is
still passed to `OnNodeProcess` after node 0's hook already returned
`Abort`. -/
theorem c4_abort_not_propagated_from_source_component :
    ∃ pre mid post,
      dfsTrace (dfs (listGraph 2) (some abortOnProcessVisitor) ()
          DFSOrder.PreOrder 10 10) =
        some (pre ++ Ev.process 0 NodeAction.Abort ::
          (mid ++ Ev.process 1 NodeAction.Abort :: post)) :=
  ⟨[Ev.startVisit, Ev.startComp, Ev.mark 0, Ev.discover 0 0,
      Ev.begin 0 NodeAction.Continue],
    [Ev.mark 1, Ev.discover 1 1, Ev.begin 1 NodeAction.Continue],
    [Ev.endComp, Ev.endVisit], rfl⟩

/-- C5: fails on the code.  Because `AddListEdge` creates the reciprocal
record only for `directed = true`, building the "undirected" 4-cycle with
`directed = false` yields the one-way cycle `0→1→2→3→0`; BFS from node 0
then sets `parent = [ROOT, 0, 1, 2]`: `parent[1] = 0` as claimed, but
`parent[3] = 2` (not 0), and the walk from node 2 to `ROOT` is `2→1→0`. -/
theorem c5_bfs_parent_tree_on_cycle4 :
    (cycle4.bind fun g =>
        (bfs g (none : Option (Visitor Int Unit)) () 30).map fun st => st.parents) =
      some [ROOT_ID, 0, 1, 2] ∧
    (cycle4.bind fun g =>
        (bfs g (none : Option (Visitor Int Unit)) () 30).map fun st =>
          st.parents.getD 3 0) = some 2 ∧
    (2 : Int) ≠ 0 :=
  ⟨rfl, rfl, by decide⟩

/-- C6: fails on the code.  `StartRandomEngine` begins with
`if(!isRandomEngineOn) return;` while `isRandomEngineOn` is initialized
`false` and is only ever set past that guard, so the function is a no-op
in every reachable state and `srand` is never called: the `Consistent`
seed is never installed, and two `InitializeGraph` calls with identical
arguments and the same configured seed go on consuming the one process
stream, producing different node sets (here node weights `0` vs `1`). -/
theorem c6_consistent_seed_never_installed :
    (∀ cs rs c t,
        startRandomEngine c t
            { commonSeed := cs, isRandomEngineOn := false, rand := rs } =
          { commonSeed := cs, isRandomEngineOn := false, rand := rs }) ∧
    c6run1.map (fun p => (p.1.nodes.map fun nd => nd.weight.num, p.1.edges.length, p.2)) =
      some ([0], 0, c6es1) ∧
    c6run2.map (fun p => (p.1.nodes.map fun nd => nd.weight.num, p.1.edges.length)) =
      some ([1], 0) ∧
    c6run2.map (fun p => p.2.rand.seedSet) = some none ∧
    (0 : Int) ≠ 1 :=
  ⟨fun _ _ _ _ => rfl, by decide, by decide, by decide, by decide⟩

/-- C7: fails on the code.  The `assert` half of the claim holds (no
storage selected makes `AddEdge` fail), but `StorageType_AdjacencyList`
and `StorageType_AdjacencyMatrix` are both declared as `1 << 0`, so the
backends are not independently selectable: an `AddEdge` with only
"`AdjacencyMatrix`" selected also appends to the edge list (and vice
versa) — here both the 2 list records and the matrix cells appear. -/
theorem c7_storage_backends_not_independent :
    ({ listGraph 2 with storageType := StorageType_None }).addEdge 0 1 5 true = none ∧
    StorageType_AdjacencyMatrix = StorageType_AdjacencyList ∧
    (({ listGraph 2 with storageType := StorageType_AdjacencyMatrix }).addEdge
          0 1 5 true).map (fun (h : Graph Int) => (h.edges.length, h.matrix)) =
      some (2, [5, 5, 0, 0]) :=
  ⟨rfl, rfl, rfl⟩

/-- C8: fails on the code.  The row/column derivation is as claimed
(`row = id / nodeCount`, `col = id % nodeCount`, weight written at
`[srcRow][dstCol]`), but the mirror cell is written under `if(directed)`:
on a 2-node graph, `AddMatrixEdge(0, 1, 5, directed=false)` writes only
the one cell, while `directed=true` additionally writes the "mirror"
(which, by the flattened-id arithmetic, is cell `[0][0]`, not `[1][0]`) —
the opposite of "mirror exactly when undirected". -/
theorem c8_matrix_mirror_on_directed :
    ((listGraph 2).addMatrixEdge 0 1 5 false).matrix = [0, 5, 0, 0] ∧
    ((listGraph 2).addMatrixEdge 0 1 5 true).matrix = [5, 5, 0, 0] ∧
    (∀ row col, (listGraph 2).getMatrixIndex row col = row * 2 + col) :=
  ⟨rfl, rfl, fun _ _ => rfl⟩

/-- C10: fails on the code.  `Graph::DFS` with no visitor reads the
uninitialized `visitSource` local (undefined behaviour), and `DFSStep`
falls off the end of a non-void function — on the path where every hook
returns `Continue` no `return` statement executes, so its `NodeAction`
result is undefined (`none` in the embedding). -/
theorem c10_dfs_undefined_results :
    dfs (listGraph 1) (none : Option (Visitor Int Unit)) () DFSOrder.PreOrder 10 10 =
      some DfsOut.undef ∧
    (dfsStep (listGraph 1) (some (trivialVisitor Int Unit)) DFSOrder.PreOrder 5 0 0
          { parents := [INVALID_ID], visited := [false], vs := (), trace := [] }).map
        (fun p => p.2) = some none :=
  ⟨rfl, rfl⟩

/-- C1, counterexample: the claim is false as stated.  On the 1-node
graph, a visitor whose `OnBeginNodeProcess` returns `SkipChildren` lets
the DFS run complete with no hook ever returning `Abort`, yet node 0 —
although flagged visited — is never passed to `OnNodeProcess`. -/
theorem c1_skipchildren_node_never_processed :
    dfsTrace (dfs (listGraph 1) (some skipAtBeginVisitor) () DFSOrder.PreOrder 10 10) =
      some [Ev.startVisit, Ev.startComp, Ev.mark 0, Ev.discover 0 0,
        Ev.begin 0 NodeAction.SkipChildren, Ev.endComp, Ev.endVisit] ∧
    NoAbort [Ev.startVisit, Ev.startComp, Ev.mark 0, Ev.discover 0 0,
      Ev.begin 0 NodeAction.SkipChildren, Ev.endComp, Ev.endVisit] ∧
    countProcess [Ev.startVisit, Ev.startComp, Ev.mark 0, Ev.discover 0 0,
      Ev.begin 0 NodeAction.SkipChildren, Ev.endComp, Ev.endVisit] 0 = 0 ∧
    countMark [Ev.startVisit, Ev.startComp, Ev.mark 0, Ev.discover 0 0,
      Ev.begin 0 NodeAction.SkipChildren, Ev.endComp, Ev.endVisit] 0 = 1 :=
  ⟨rfl, by decide, rfl, rfl⟩

/-- C9, counterexample: the claim is false as stated.  On the 1-node
graph with the default visitor, DFS completes without `Abort`, node 0
starts the only component, yet its `parent` is set to its own id `0` —
the driver passes `nodeIt`/`visitSource` as the `parent` argument — and
not to the `ROOT` sentinel `-1`. -/
theorem c9_dfs_component_root_not_root_sentinel :
    dfsParents (dfs (listGraph 1) (some (trivialVisitor Int Unit)) ()
        DFSOrder.PreOrder 10 10) = some [0] ∧
    dfsTrace (dfs (listGraph 1) (some (trivialVisitor Int Unit)) ()
        DFSOrder.PreOrder 10 10) =
      some [Ev.startVisit, Ev.startComp, Ev.mark 0, Ev.discover 0 0,
        Ev.begin 0 NodeAction.Continue, Ev.process 0 NodeAction.Continue,
        Ev.endNode 0 NodeAction.Continue, Ev.endComp, Ev.endVisit] ∧
    NoAbort [Ev.startVisit, Ev.startComp, Ev.mark 0, Ev.discover 0 0,
      Ev.begin 0 NodeAction.Continue, Ev.process 0 NodeAction.Continue,
      Ev.endNode 0 NodeAction.Continue, Ev.endComp, Ev.endVisit] ∧
    (0 : Int) ≠ ROOT_ID :=
  ⟨rfl, rfl, by decide, by decide⟩

/-- C1, amended: for every well-formed graph, a completed visitor-attached
`BFS` run in which no hook returned `Abort` marks every node visited
exactly once and fires `OnNodeProcess` exactly once per node; a completed
visitor-attached `DFS` run with no `Abort` marks every node visited
exactly once, fires `OnBeginNodeProcess` exactly once per node, and fires
`OnNodeProcess` exactly once per `Continue` answer of
`OnBeginNodeProcess` — so a node whose `OnBeginNodeProcess` answers
`SkipChildren` is flagged visited without ever reaching
`OnNodeProcess`, even though the run is not truncated. -/
theorem c1_visited_once_and_process_discipline [Inhabited T] (g : Graph T)
    (v w : Visitor T S) (s0 t0 : S) (order : DFSOrder)
    (fuel stepFuel loopFuel : Nat) (outB : BState S) (outD : DState S)
    (hwf : WF g)
    (hsrcB : startIndex (some v) < g.nodes.length)
    (hrunB : bfs g (some v) s0 fuel = some outB)
    (hnaB : NoAbort outB.trace)
    (hsrcD : (if w.visitSource < 0 then 0 else w.visitSource.toNat) < g.nodes.length)
    (hrunD : dfs g (some w) t0 order stepFuel loopFuel = some (DfsOut.ok outD))
    (hnaD : NoAbort outD.trace) :
    ∀ i, i < g.nodes.length →
      countMark outB.trace i = 1 ∧ countProcess outB.trace i = 1 ∧
      countMark outD.trace i = 1 ∧ countBegin outD.trace i = 1 ∧
      countProcess outD.trace i = countBeginCont outD.trace i := by
  intro i hi
  obtain ⟨hm, hp, _⟩ := bfs_final hwf hsrcB hrunB hnaB i hi
  obtain ⟨hm2, hb2, hp2, _⟩ :=
    dfs_final w t0 order stepFuel loopFuel outD hwf hsrcD hrunD hnaD i hi
  exact ⟨hm, hp, hm2, hb2, hp2⟩

/-- C1, witness: the amended statement instantiated on the 2-node
edgeless graph with the default visitor, at node 0. -/
theorem c1_visited_once_and_process_discipline_witness :
    countMark bfsRun2.trace 0 = 1 ∧ countProcess bfsRun2.trace 0 = 1 ∧
    countMark dfsRun2.trace 0 = 1 ∧ countBegin dfsRun2.trace 0 = 1 ∧
    countProcess dfsRun2.trace 0 = countBeginCont dfsRun2.trace 0 :=
  c1_visited_once_and_process_discipline (listGraph 2) (trivialVisitor Int Unit)
    (trivialVisitor Int Unit) () () DFSOrder.PreOrder 10 10 10 bfsRun2 dfsRun2
    (by decide) (by decide) rfl (by decide) (by decide) rfl (by decide)
    0 (by decide)

/-- C9, amended: `ROOT_ID = -1` and `INVALID_ID = -2` are distinct
sentinels outside the valid id range `[0, nodeCount)`.  After a completed
no-`Abort` visitor-attached run every node was visited, and: in BFS each
node's `parent` is either the `ROOT` sentinel together with a recorded
component-root assignment, or the id of the unique node recorded as
discovering it; in DFS each node's `parent` is exactly the value recorded
by its unique discovery event — which for a component root is the root's
own id, not the `ROOT` sentinel. -/
theorem c9_parent_field_characterization [Inhabited T] (g : Graph T)
    (v w : Visitor T S) (s0 t0 : S) (order : DFSOrder)
    (fuel stepFuel loopFuel : Nat) (outB : BState S) (outD : DState S)
    (hwf : WF g)
    (hsrcB : startIndex (some v) < g.nodes.length)
    (hrunB : bfs g (some v) s0 fuel = some outB)
    (hnaB : NoAbort outB.trace)
    (hsrcD : (if w.visitSource < 0 then 0 else w.visitSource.toNat) < g.nodes.length)
    (hrunD : dfs g (some w) t0 order stepFuel loopFuel = some (DfsOut.ok outD))
    (hnaD : NoAbort outD.trace) :
    (ROOT_ID ≠ INVALID_ID ∧ ROOT_ID < 0 ∧ INVALID_ID < 0) ∧
    ∀ i, i < g.nodes.length →
      ((outB.parents.getD i 0 = ROOT_ID ∧ Ev.rootAssign i ∈ outB.trace) ∨
        ∃ j, j < g.nodes.length ∧ outB.parents.getD i 0 = (j : Int) ∧
          discoverers outB.trace i = [(j : Int)]) ∧
      ∃ p, outD.parents.getD i 0 = p ∧ discoverers outD.trace i = [p] := by
  refine ⟨⟨by decide, by decide, by decide⟩, ?_⟩
  intro i hi
  obtain ⟨_, _, hpar⟩ := bfs_final hwf hsrcB hrunB hnaB i hi
  obtain ⟨_, _, _, hdp⟩ :=
    dfs_final w t0 order stepFuel loopFuel outD hwf hsrcD hrunD hnaD i hi
  exact ⟨hpar, hdp⟩

/-- C9, witness: the amended statement instantiated on the 2-node
edgeless graph with the default visitor, at node 0. -/
theorem c9_parent_field_characterization_witness :
    (ROOT_ID ≠ INVALID_ID ∧ ROOT_ID < 0 ∧ INVALID_ID < 0) ∧
    ((bfsRun2.parents.getD 0 0 = ROOT_ID ∧ Ev.rootAssign 0 ∈ bfsRun2.trace) ∨
      ∃ j, j < (listGraph 2).nodes.length ∧ bfsRun2.parents.getD 0 0 = (j : Int) ∧
        discoverers bfsRun2.trace 0 = [(j : Int)]) ∧
    (∃ p, dfsRun2.parents.getD 0 0 = p ∧ discoverers dfsRun2.trace 0 = [p]) :=
  have h := c9_parent_field_characterization (listGraph 2) (trivialVisitor Int Unit)
    (trivialVisitor Int Unit) () () DFSOrder.PreOrder 10 10 10 bfsRun2 dfsRun2
    (by decide) (by decide) rfl (by decide) (by decide) rfl (by decide)
  ⟨h.1, (h.2 0 (by decide)).1, (h.2 0 (by decide)).2⟩

end KWGraph
